import Mathlib

/-!
Shallow embedding of `src/web_crawler.py` (class `LiveCrawler`).

Modelling conventions:
* Python `set` objects are represented as duplicate-free `List String` values in
  insertion order; membership is `List.contains` and `add` appends when absent.
  Whenever the Python code *iterates* over a set (whose order depends on the
  per-process string-hash seed), the iteration order is supplied by an oracle
  function (`Env.linkOrder`, `Env.fnOrder`).
* `requests.get` is modelled by the oracles `Env.fetchPage` / `Env.fetchScript`;
  `none` stands for any raised exception (network error, timeout, bad scheme),
  which the Python code catches (`except: continue` / `except: return set()`).
* `urllib.parse.urlparse` is modelled by the oracle `Env.parse`, which returns
  the `scheme` and `netloc` components (the only ones the code reads).
* `urllib.parse.urljoin` is modelled by `urljoin`: the stdlib returns the base
  unchanged for an empty reference (`if not url: return base`); nonempty
  references are resolved by the oracle `Env.resolve`.
* A parsed HTML document (`BeautifulSoup(... , 'html.parser')`) is a list of
  `Element`s (tag name plus attribute association list) in document order;
  `element.get(attr, '')` is `getAttr`.  Line 173's `script.src` is
  BeautifulSoup *attribute access* (`Tag.__getattr__`), which searches for a
  child element named `src` (`self.find('src')`) — it does not read the HTML
  `src` attribute (that accessor, `Tag.get`, is the one `find_links` uses).
  Under `html.parser` a `<script>` element holds only text, so `script.src`
  is always `None` (`scriptSrcTag`), and the script-analysis branch of the
  crawl loop (lines 174-179) is dead code; it is kept in the model with its
  faithful guard.
* The bare `except` of `analyze_js` (line 116) catches not only fetch
  failures but also exceptions raised while resolving an extracted API-call
  target (line 106; e.g. `ValueError: Invalid IPv6 URL` from `urljoin` on a
  target like `http://[`).  `Env.resolveApi` returns `none` for a target
  whose resolution raises; the loop then aborts, keeping the insertions
  already made, and the function returns the empty set (`apiLoop`).
* Python regular-expression searches are embedded as explicit scanning
  functions over `List Char` (see `searchAny`, `apiFindAll`, `fnFindAll`),
  restricted as in the source to the ASCII word/space classes.
* The crawl loop of `LiveCrawler.crawl` runs on explicit state
  (`CrawlState`) with a fuel parameter (the Python loop need not terminate on
  an infinite site).  `CrawlState.log` records the `print_finding` calls in
  order, and `CrawlState.crawled_log` is ghost instrumentation recording each
  dequeued entry that is actually processed (lines 152-154 of the source,
  where `visited_urls` is extended and the progress counters updated).
  The cosmetic progress-display thread, the per-entry `time.sleep(0.5)` and
  the `stop_event` cancellation flag are not modelled.
-/

/-! ### Character classes (ASCII fragments of Python `re` classes) -/

/-- Python `\w` (ASCII): letters, digits, underscore. -/
def isWordChar (c : Char) : Bool := c.isAlphanum || c == '_'

/-- Word-character test on an optional character; out of string counts as non-word. -/
def isWordOpt : Option Char → Bool
  | some c => isWordChar c
  | none => false

/-- Python `\s` (ASCII): space, tab, newline, carriage return, vertical tab, form feed. -/
def isSpaceCh (c : Char) : Bool :=
  c == ' ' || c == Char.ofNat 9 || c == Char.ofNat 10 || c == Char.ofNat 13 ||
    c == Char.ofNat 11 || c == Char.ofNat 12

/-- First character of the identifier class `[a-zA-Z_$]` in the function-name regex. -/
def identStart (c : Char) : Bool := c.isAlpha || c == '_' || c == Char.ofNat 36

/-- Continuation class `[\w$]` of the function-name regex. -/
def identCont (c : Char) : Bool := isWordChar c || c == Char.ofNat 36

/-- Quote class `['"]` of the API-call regex. -/
def isQuote (c : Char) : Bool := c == Char.ofNat 39 || c == Char.ofNat 34

/-! ### Generic scanning: `re.search(p, s)` succeeds iff `p` matches at some suffix. -/

/-- `searchAny p s` is true iff `p` holds at some suffix of `s` (including the
empty suffix), i.e. the regex whose anchored-match test is `p` matches
somewhere in `s`. -/
def searchAny (p : List Char → Bool) : List Char → Bool
  | [] => p []
  | c :: cs => p (c :: cs) || searchAny p cs

/-! ### `LiveCrawler.classify_endpoint` (source lines 44-64) -/

/-- Extension alternatives of the backend pattern
`\.(json|xml|ashx|asmx|php|jsp|do|action|api|rest)\b`. -/
def backendExts : List (List Char) :=
  ["json", "xml", "ashx", "asmx", "php", "jsp", "do", "action", "api", "rest"].map String.data

/-- Extension alternatives of the page pattern `\.(html|htm|asp|aspx|cfm)\b`. -/
def pageExts : List (List Char) := ["html", "htm", "asp", "aspx", "cfm"].map String.data

/-- Query-flag alternatives of the backend pattern `\?(action|method|api_key)=`. -/
def queryKeyList : List (List Char) := ["action", "method", "api_key"].map String.data

/-- Anchored match of `(alt1|alt2|...)\b` at `s`: some alternative is a prefix of
`s` and the character following it (if any) is not a word character. -/
def extHere (alts : List (List Char)) (s : List Char) : Bool :=
  alts.any fun w => w.isPrefixOf s && !isWordOpt (s.drop w.length).head?

/-- `re.search` of `\.(alt1|...)\b`: a dot somewhere, followed by an alternative
and a word boundary. -/
def dotAltSearch (alts : List (List Char)) : List Char → Bool :=
  searchAny fun s =>
    match s with
    | '.' :: rest => extHere alts rest
    | _ => false

/-- `re.search` of a literal substring pattern (used for `/api/`, `/ws/`, `/rest/`). -/
def substrSearch (w : List Char) : List Char → Bool :=
  searchAny fun s => w.isPrefixOf s

/-- Anchored match of `\?(k1|k2|...)=` at `s`. -/
def queryKeyHere (keys : List (List Char)) (s : List Char) : Bool :=
  match s with
  | '?' :: rest => keys.any fun k => (k ++ ['=']).isPrefixOf rest
  | _ => false

/-- `re.search` of `\?(k1|k2|...)=`. -/
def queryKeySearch (keys : List (List Char)) : List Char → Bool :=
  searchAny (queryKeyHere keys)

/-- Anchored match of `/[^/.]+$` at `s`: a slash followed by a nonempty tail,
running to the end of the string, containing neither slash nor dot. -/
def tailCompHere (s : List Char) : Bool :=
  match s with
  | '/' :: rest => !rest.isEmpty && rest.all fun c => !(c == '/') && !(c == '.')
  | _ => false

/-- `re.search` of the extensionless-path pattern `/[^/.]+$`. -/
def extensionlessSearch : List Char → Bool := searchAny tailCompHere

/-- The three classification outcomes of `classify_endpoint`. -/
inductive Category
  | backend
  | html
  | unknown
deriving DecidableEq

/-- `LiveCrawler.classify_endpoint`: backend patterns are evaluated first, then
page patterns, otherwise unknown.  All searches use `re.I`, embedded by
lowering the URL (the pattern literals are lower-case and the character
classes involved are closed under `Char.toLower`). -/
def classify_endpoint (url : String) : Category :=
  let u := url.data.map Char.toLower
  if dotAltSearch backendExts u || substrSearch "/api/".data u ||
      substrSearch "/ws/".data u || substrSearch "/rest/".data u ||
      queryKeySearch queryKeyList u || dotAltSearch ["cgi".data] u then
    Category.backend
  else if dotAltSearch pageExts u || extensionlessSearch u then
    Category.html
  else
    Category.unknown

/-! ### Canonicalization (source line 83): `url.split('?')[0].split('#')[0]` -/

/-- `clean_url url` is the prefix of `url` before the first `?`, then before the
first `#` (Char 35): exactly `url.split('?')[0].split('#')[0]`. -/
def clean_url (url : String) : String :=
  String.mk ((url.data.takeWhile fun c => !(c == '?')).takeWhile fun c => !(c == Char.ofNat 35))

/-! ### URL validation and the external-library oracles -/

/-- The `scheme` and `netloc` components of `urllib.parse.urlparse` (the only
components the source reads). -/
structure UrlParts where
  scheme : String
  netloc : String
deriving DecidableEq

/-- A parsed HTML element: tag name and attribute association list. -/
structure Element where
  name : String
  attrs : List (String × String)
deriving DecidableEq

/-- The external environment of one crawl: URL parsing and resolution oracles
(`resolve` for the link extractor, where a raising `urljoin` would abort the
whole page pass and no claim depends on it, and `resolveApi` for API-call
targets inside `analyze_js`, where `none` models the library raising), the
network (a fixed mocked response graph), and the set-iteration orders
induced by the per-process string-hash seed (`fnOrder` belongs to the
unreachable merge branch, see `scriptSrcTag`). -/
structure Env where
  parse : String → UrlParts
  resolve : String → String → String
  resolveApi : String → String → Option String
  fetchPage : String → Option (List Element)
  fetchScript : String → Option String
  linkOrder : List String → List String
  fnOrder : List String → List String

/-- `urllib.parse.urljoin`: the empty reference returns the base unchanged;
nonempty references are resolved by the oracle. -/
def urljoin (resolve : String → String → String) (base r : String) : String :=
  if r = "" then base else resolve base r

/-- `urllib.parse.urljoin` applied to an extracted API-call target (line 106):
the oracle returns `none` when the library raises (e.g. `ValueError` on a
malformed reference such as `http://[`), which the bare `except` at line
116 catches.  The empty-reference case cannot raise. -/
def urljoinApi (resolveApi : String → String → Option String) (base r : String) :
    Option String :=
  if r = "" then some base else resolveApi base r

/-- `LiveCrawler.is_valid_url` (lines 39-42):
`parsed.netloc == self.domain and parsed.scheme in ('http', 'https')`. -/
def is_valid_url (parse : String → UrlParts) (domain url : String) : Bool :=
  (parse url).netloc == domain &&
    ((parse url).scheme == "http" || (parse url).scheme == "https")

/-! ### `LiveCrawler.find_links` (lines 66-77) -/

/-- `element.get(attr, '')`. -/
def getAttr (e : Element) (a : String) : String :=
  match e.attrs.lookup a with
  | some v => v
  | none => ""

/-- The attribute inspected per element kind (lines 70-72). -/
def attrFor (name : String) : Option String :=
  if name == "a" || name == "link" then some "href"
  else if name == "script" || name == "frame" || name == "iframe" then some "src"
  else if name == "form" then some "action"
  else none

/-- The element kinds scanned by `soup.find_all` in `find_links`. -/
def linkElementNames : List String := ["a", "form", "frame", "iframe", "script", "link"]

/-- Python `set.add` on the list representation: append when absent. -/
def setAdd (l : List String) (x : String) : List String :=
  if l.contains x then l else l ++ [x]

/-- Python `set.update` on the list representation. -/
def setUnion (l : List String) (xs : List String) : List String :=
  xs.foldl setAdd l

/-- `LiveCrawler.find_links`: scan the document's elements of the six kinds,
resolve the inspected attribute (defaulting to `''`) against the base URL,
filter through the validator, and collect into a set. -/
def find_links (env : Env) (domain : String) (doc : List Element) (base_url : String) :
    List String :=
  doc.foldl
    (fun links e =>
      if linkElementNames.contains e.name then
        match attrFor e.name with
        | some a =>
          let url := urljoin env.resolve base_url (getAttr e a)
          if is_valid_url env.parse domain url then setAdd links url else links
        | none => links
      else links)
    []

/-! ### Findings store: `LiveCrawler.process_endpoint` (lines 79-90) -/

/-- The mutable crawl state: visited set, frontier queue, the three findings
containers, the ordered `print_finding` log, and the ghost `crawled_log`. -/
structure CrawlState where
  visited_urls : List String
  queue : List (String × Nat)
  html_pages : List String
  backend_endpoints : List String
  functions : List String
  log : List (String × String)
  crawled_log : List (String × Nat)
deriving DecidableEq

/-- `LiveCrawler.process_endpoint`: classify the full URL, canonicalize it, and
insert into the matching container when the canonical key is not already in
that container, emitting one finding notification. -/
def process_endpoint (st : CrawlState) (url : String) : CrawlState :=
  let k := clean_url url
  match classify_endpoint url with
  | Category.html =>
    if st.html_pages.contains k then st
    else { st with html_pages := st.html_pages ++ [k], log := st.log ++ [("html", k)] }
  | Category.backend =>
    if st.backend_endpoints.contains k then st
    else { st with backend_endpoints := st.backend_endpoints ++ [k],
                   log := st.log ++ [("backend", k)] }
  | Category.unknown => st

/-! ### `LiveCrawler.analyze_js` (lines 92-117) -/

/-- Callee alternatives of `(?:fetch|axios|\.ajax|XMLHttpRequest)\(['"]([^'"]+)`,
stored lower-case for the `re.IGNORECASE` comparison. -/
def apiCallees : List (List Char) := ["fetch", "axios", ".ajax", "xmlhttprequest"].map String.data

/-- Case-insensitive prefix test (pattern chars are lower-case literals). -/
def ciPrefix : List Char → List Char → Bool
  | [], _ => true
  | _ :: _, [] => false
  | p :: ps, c :: cs => (c.toLower == p) && ciPrefix ps cs

/-- Anchored match of the API-call regex at `s`: a callee alternative, an
opening parenthesis, a quote, and a nonempty captured run of non-quote
characters.  Returns the capture and the remainder of the string. -/
def apiTryAt (s : List Char) : Option (List Char × List Char) :=
  (apiCallees.filterMap fun pat =>
    if ciPrefix pat s then
      match s.drop pat.length with
      | c1 :: c2 :: tail =>
        if c1 == '(' && isQuote c2 then
          let cap := tail.takeWhile fun c => !isQuote c
          if cap.isEmpty then none else some (cap, tail.drop cap.length)
        else none
      | _ => none
    else none).head?

/-- Fueled left-to-right non-overlapping scan of the API-call regex
(`re.findall` semantics, capture group 1). -/
def apiFindAux : Nat → List Char → List (List Char)
  | 0, _ => []
  | _ + 1, [] => []
  | fuel + 1, c :: cs =>
    match apiTryAt (c :: cs) with
    | some (cap, rest) => cap :: apiFindAux fuel rest
    | none => apiFindAux fuel cs

/-- `re.findall` of the API-call regex over a script body. -/
def apiFindAll (content : List Char) : List (List Char) := apiFindAux content.length content

/-- Keyword alternatives of `\b(function|const|let|var)\s+([a-zA-Z_$][\w$]+)\b`. -/
def bindingKeywords : List (List Char) := ["function", "const", "let", "var"].map String.data

/-- The binding keyword (if any) that is a prefix of `s`; the four alternatives
have pairwise distinct first characters, so at most one applies. -/
def kwHere (s : List Char) : Option Nat :=
  (bindingKeywords.filterMap fun kw => if kw.isPrefixOf s then some kw.length else none).head?

/-- Backtracking of the greedy `[\w$]+` against the trailing `\b`: try the
identifier continuations `run.take (k+1)` from longest to shortest, accepting
the first whose final character makes a word boundary with what follows. -/
def pickIdentAux (c0 : Char) (run rest : List Char) : Nat → Option (List Char × List Char)
  | 0 => none
  | k + 1 =>
    let cand := c0 :: run.take (k + 1)
    let after := run.drop (k + 1) ++ rest
    if isWordChar (cand.getLastD c0) != isWordOpt after.head? then some (cand, after)
    else pickIdentAux c0 run rest k

/-- Anchored match of the function-name regex at `s` given the word-ness of the
preceding character (for the leading `\b`).  Returns capture group 2 (the
identifier) and the remainder after the match. -/
def kwTryAt (prevWord : Bool) (s : List Char) : Option (List Char × List Char) :=
  if prevWord then none
  else
    match kwHere s with
    | none => none
    | some klen =>
      let r1 := s.drop klen
      let ws := r1.takeWhile isSpaceCh
      if ws.isEmpty then none
      else
        match r1.drop ws.length with
        | [] => none
        | c0 :: tail =>
          if identStart c0 then
            pickIdentAux c0 (tail.takeWhile identCont)
              (tail.drop (tail.takeWhile identCont).length)
              (tail.takeWhile identCont).length
          else none

/-- Fueled left-to-right non-overlapping scan of the function-name regex
(`re.findall` semantics, capture group 2), tracking the word-ness of the
previous character. -/
def fnFindAux : Nat → Bool → List Char → List (List Char)
  | 0, _, _ => []
  | _ + 1, _, [] => []
  | fuel + 1, prevWord, c :: cs =>
    match kwTryAt prevWord (c :: cs) with
    | some (ident, rest) => ident :: fnFindAux fuel (isWordChar (ident.getLastD c)) rest
    | none => fnFindAux fuel (isWordChar c) cs

/-- `re.findall` of the function-name regex over a script body. -/
def fnFindAll (content : List Char) : List (List Char) := fnFindAux content.length false content

/-- `{fn[1] for fn in functions}`: the deduplicated identifiers. -/
def extractFunctions (content : String) : List String :=
  ((fnFindAll content.data).map String.mk).dedup

/-- The `for ep in api_calls` loop (lines 105-108): each target is resolved
against the script URL and, when it passes the validator, inserted via
`process_endpoint`.  A library exception while resolving a target (`none`
from the oracle) aborts the loop — insertions already made are kept — and
the returned flag records whether the loop completed. -/
def apiLoop (env : Env) (domain url : String) :
    List (List Char) → CrawlState → CrawlState × Bool
  | [], st => (st, true)
  | ep :: rest, st =>
    match urljoinApi env.resolveApi url (String.mk ep) with
    | none => (st, false)
    | some full_url =>
      apiLoop env domain url rest
        (if is_valid_url env.parse domain full_url then process_endpoint st full_url else st)

/-- `LiveCrawler.analyze_js`: a fetch failure yields the empty result with no
state change; on success the API-call targets are processed by `apiLoop`,
and the function-name set is extracted — unless an exception aborted the
loop, in which case the bare `except` returns the empty set while the
insertions made before the failing target remain. -/
def analyze_js (env : Env) (domain : String) (st : CrawlState) (url : String) :
    CrawlState × List String :=
  match env.fetchScript url with
  | none => (st, [])
  | some content =>
    match apiLoop env domain url (apiFindAll content.data) st with
    | (st1, true) => (st1, extractFunctions content)
    | (st1, false) => (st1, [])

/-! ### `LiveCrawler.crawl` (lines 140-189) -/

/-- Lines 176-179: `self.found['functions'].update(functions)` followed by one
`print_finding('function', fn)` per element of the iterated set. -/
def mergeFunctions (st : CrawlState) (fns : List String) : CrawlState :=
  { st with functions := setUnion st.functions fns,
            log := st.log ++ fns.map fun fn => ("function", fn) }

/-- Line 173's `script.src`: BeautifulSoup attribute access on a `Tag` is
`Tag.__getattr__`, i.e. `self.find('src')` — a search among the element's
*children* for a tag named `src`, not a lookup of the `src` HTML attribute.
A `<script>` element parsed by `html.parser` contains only text, never
child elements, so this is always `None`. -/
def scriptSrcTag (_e : Element) : Option String := none

/-- Lines 172-179: for each `script` element, test `script.src` (the child-tag
lookup `scriptSrcTag`, always `None`) and, in the consequently unreachable
branch, resolve it, run the script analyzer, and merge the returned
function names in the set-iteration order. -/
def processScripts (env : Env) (domain : String) (page_url : String) (doc : List Element)
    (st : CrawlState) : CrawlState :=
  doc.foldl
    (fun st2 e =>
      if e.name == "script" then
        match scriptSrcTag e with
        | some src =>
          if src == "" then st2
          else
            let js_url := urljoin env.resolve page_url src
            let res := analyze_js env domain st2 js_url
            mergeFunctions res.1 (env.fnOrder res.2)
        | none => st2
      else st2)
    st

/-- Lines 164-169: classify each discovered link and enqueue it at depth+1 when
not yet visited. -/
def processLinks (depth : Nat) (links : List String) (st : CrawlState) :
    CrawlState :=
  links.foldl
    (fun st2 link =>
      let st3 := process_endpoint st2 link
      if st3.visited_urls.contains link then st3
      else { st3 with queue := st3.queue ++ [(link, depth + 1)] })
    st

/-- The crawl loop (lines 146-184), driven by fuel: dequeue, skip visited or
too-deep entries, otherwise mark visited (recorded in the ghost
`crawled_log`), fetch (failure skips the entry), record the finding, process
links, and analyze scripts. -/
def crawlLoop (env : Env) (domain : String) (max_depth : Nat) :
    Nat → CrawlState → CrawlState
  | 0, st => st
  | fuel + 1, st =>
    match st.queue with
    | [] => st
    | (url, depth) :: rest =>
      let st1 := { st with queue := rest }
      if st1.visited_urls.contains url || max_depth < depth then
        crawlLoop env domain max_depth fuel st1
      else
        let st2 := { st1 with visited_urls := st1.visited_urls ++ [url],
                              crawled_log := st1.crawled_log ++ [(url, depth)] }
        match env.fetchPage url with
        | none => crawlLoop env domain max_depth fuel st2
        | some doc =>
          let st3 := process_endpoint st2 url
          let links := env.linkOrder (find_links env domain doc url)
          let st4 := processLinks depth links st3
          let st5 := processScripts env domain url doc st4
          crawlLoop env domain max_depth fuel st5

/-- `LiveCrawler.__init__`: one seed frontier entry `(base_url, 0)`, all
containers empty. -/
def initState (base_url : String) : CrawlState :=
  { visited_urls := [], queue := [(base_url, 0)], html_pages := [],
    backend_endpoints := [], functions := [], log := [], crawled_log := [] }

/-- A full crawl run: the target domain is `urlparse(base_url).netloc`. -/
def crawl (env : Env) (base_url : String) (max_depth : Nat) (fuel : Nat) : CrawlState :=
  crawlLoop env ((env.parse base_url).netloc) max_depth fuel (initState base_url)

/-! ### `LiveCrawler.generate_report` (lines 191-204) -/

/-- `sorted` on the list representation of a set. -/
def sortStrings (l : List String) : List String := List.insertionSort (fun a b => a ≤ b) l

/-- The structured report produced for the report-writer collaborator. -/
structure CrawlReport where
  target : String
  html_pages : List String
  backend_endpoints : List String
  functions : List String
  total_html : Nat
  total_backend : Nat
  total_functions : Nat
  max_depth : Nat
deriving DecidableEq

/-- `LiveCrawler.generate_report`. -/
def generate_report (base_url : String) (max_depth : Nat) (st : CrawlState) : CrawlReport :=
  { target := base_url,
    html_pages := sortStrings st.html_pages,
    backend_endpoints := sortStrings st.backend_endpoints,
    functions := sortStrings st.functions,
    total_html := st.html_pages.length,
    total_backend := st.backend_endpoints.length,
    total_functions := st.functions.length,
    max_depth := max_depth }

/-! ### Declarative (specification-side) reading of the classifier rules

These definitions follow the wording of the specification (§4.2) rather than
the scanning code; the refinement theorems below compare them with
`classify_endpoint`. -/

/-- The head of `post` (if any) is not a word character: the `\b` condition. -/
def HeadNotWord (post : List Char) : Prop :=
  ∀ c, post.head? = some c → isWordChar c = false

/-- Declarative reading of `\.(alt1|...)\b`: somewhere in the string, a dot
followed by one of the alternatives at a word boundary. -/
def SpecDotExt (alts : List (List Char)) (l : List Char) : Prop :=
  ∃ w ∈ alts, ∃ pre post, l = pre ++ '.' :: (w ++ post) ∧ HeadNotWord post

/-- Declarative reading of `\?(k1|...)=`: the literal `?key=` occurs in the
string. -/
def SpecQueryFlag (keys : List (List Char)) (l : List Char) : Prop :=
  ∃ k ∈ keys, ('?' :: (k ++ ['='])) <:+: l

/-- Declarative reading of `/[^/.]+$`: the string ends in a slash followed by a
nonempty run free of slashes and dots. -/
def SpecTailComp (l : List Char) : Prop :=
  ∃ pre comp, l = pre ++ '/' :: comp ∧ comp ≠ [] ∧
    ∀ c ∈ comp, (!(c == '/') && !(c == '.')) = true

/-- The backend rules of §4.2, read declaratively over the lowered URL text
(all searches apply to the full URL string). -/
def SpecBackend (u : String) : Prop :=
  SpecDotExt backendExts (u.data.map Char.toLower) ∨
    "/api/".data <:+: u.data.map Char.toLower ∨ "/ws/".data <:+: u.data.map Char.toLower ∨
    "/rest/".data <:+: u.data.map Char.toLower ∨
    SpecQueryFlag queryKeyList (u.data.map Char.toLower) ∨
    SpecDotExt ["cgi".data] (u.data.map Char.toLower)

/-- The page rules of §4.2, read declaratively over the lowered URL text. -/
def SpecHtml (u : String) : Prop :=
  SpecDotExt pageExts (u.data.map Char.toLower) ∨ SpecTailComp (u.data.map Char.toLower)

/-- The query string of a URL as the claim reads it: the text after the first
`?` and before the first `#` (Char 35). -/
def queryStringOf (u : String) : List Char :=
  ((u.data.dropWhile fun c => !(c == '?')).drop 1).takeWhile fun c => !(c == Char.ofNat 35)

/-- Split a character list on `&` (Char 38). -/
def splitOnAmp : List Char → List (List Char)
  | [] => [[]]
  | c :: cs =>
    if c == Char.ofNat 38 then [] :: splitOnAmp cs
    else
      match splitOnAmp cs with
      | [] => [[c]]
      | p :: ps => (c :: p) :: ps

/-- The query-parameter keys of a URL as the claim reads them: each `&`-separated
parameter's text before its `=`. -/
def specQueryKeys (u : String) : List (List Char) :=
  (splitOnAmp (queryStringOf u)).map fun p => p.takeWhile fun c => !(c == '=')

/-! ### Scan-state helpers used to state the function-name completeness theorem -/

/-- The word-ness of the character preceding the current scan position after
walking over `pre`, starting from word-ness `pw`. -/
def endPrevW (pw : Bool) (pre : List Char) : Bool :=
  match pre.getLast? with
  | some c => isWordChar c
  | none => pw

/-- The function-name scan, started with previous-character word-ness `pw`,
walks through all of `pre` without an anchored match when the remainder of
the text is `rest` (the non-overlapping `re.findall` scan consumes earlier
matches, so completeness statements must assume the region before an
occurrence is consumed one character at a time). -/
def scanSkips (pw : Bool) : List Char → List Char → Prop
  | [], _ => True
  | c :: cs, rest => kwTryAt pw (c :: cs ++ rest) = none ∧ scanSkips (isWordChar c) cs rest

/-! ### Concrete test fixtures (mocked environments for witnesses and
counterexamples) -/

/-- An empty findings store (no frontier): fixture for store-level theorems. -/
def emptyFindings : CrawlState :=
  { visited_urls := [], queue := [], html_pages := [], backend_endpoints := [],
    functions := [], log := [], crawled_log := [] }

/-- Mock of `urlparse` for the `x.test` fixtures: any URL whose canonical form
lives under `http://x.test/` parses to scheme `http`, host `x.test` (real
`urlparse` ignores query and fragment when extracting these components). -/
def demoParse (s : String) : UrlParts :=
  if "http://x.test/".data.isPrefixOf (clean_url s).data then
    { scheme := "http", netloc := "x.test" }
  else
    { scheme := "", netloc := "" }

/-- Fixture environment builder: absolute-URL resolution that never raises, a
chosen link-iteration order, identity function order. -/
def demoEnv (fp : String → Option (List Element)) (fs : String → Option String)
    (lo : List String → List String) : Env :=
  { parse := demoParse, resolve := fun _ r => r, resolveApi := fun _ r => some r,
    fetchPage := fp, fetchScript := fs, linkOrder := lo, fnOrder := id }

/-- One page linking to a second full URL that shares its canonical key. -/
def pageC1 : List Element := [{ name := "a", attrs := [("href", "http://x.test/foo?action=1")] }]

/-- Environment for the canonical-key overlap run. -/
def envC1 : Env :=
  demoEnv (fun u => if u = "http://x.test/foo" then some pageC1 else none) (fun _ => none) id

/-- Script body whose second API-call target is the malformed `http://[`. -/
def scriptC5 : String := "fetch(\"/api/a\");fetch(\"http://[\")"

/-- Environment for the partial-analysis-failure run: the script fetch
succeeds, its first API target resolves against the site, and resolving the
malformed second target `http://[` raises (`ValueError: Invalid IPv6 URL`
inside `urljoin`), modelled as `none`. -/
def envC5 : Env :=
  { demoEnv (fun _ => none)
      (fun u => if u = "http://x.test/app.js" then some scriptC5 else none) id with
    resolveApi := fun _ r =>
      if r = "http://[" then none else some (String.append "http://x.test" r) }

/-- One page linking to two sibling pages, both of which classify `html`. -/
def pageC9 : List Element :=
  [{ name := "a", attrs := [("href", "http://x.test/p1")] },
   { name := "a", attrs := [("href", "http://x.test/p2")] }]

/-- Page fetches for the determinism runs. -/
def fetchPageC9 (u : String) : Option (List Element) :=
  if u = "http://x.test/a" then some pageC9 else none

/-- Determinism run 1: link sets iterated in insertion order. -/
def envC9a : Env := demoEnv fetchPageC9 (fun _ => none) id

/-- Determinism run 2: the same graph, but the per-process hash seed makes
link sets iterate in the reverse order. -/
def envC9b : Env := demoEnv fetchPageC9 (fun _ => none) List.reverse

/-! ### Invariant predicates for the domain-restriction theorem -/

/-- Every stored finding has the target host and an http(s) scheme. -/
def StoreOk (env : Env) (domain : String) (st : CrawlState) : Prop :=
  (∀ k ∈ st.html_pages, (env.parse k).netloc = domain ∧
    ((env.parse k).scheme = "http" ∨ (env.parse k).scheme = "https")) ∧
  (∀ k ∈ st.backend_endpoints, (env.parse k).netloc = domain ∧
    ((env.parse k).scheme = "http" ∨ (env.parse k).scheme = "https"))

/-- Every frontier entry is the crawl seed or has passed the validator. -/
def QueueOk (env : Env) (domain base : String) (st : CrawlState) : Prop :=
  ∀ p ∈ st.queue, p.1 = base ∨ is_valid_url env.parse domain p.1 = true

/-! ## Helper lemmas -/

/-- Canonicalization is idempotent on the underlying operation. -/
theorem clean_clean (u : String) : clean_url (clean_url u) = clean_url u := by
  unfold clean_url
  congr 1
  have h1 : ∀ x ∈ (u.data.takeWhile fun c => !(c == '?')).takeWhile
      (fun c => !(c == Char.ofNat 35)), (!(x == '?')) = true := by
    intro x hx
    have hx2 : x ∈ u.data.takeWhile fun c => !(c == '?') :=
      ( List.takeWhile_prefix _).subset hx
    have h3 := List.mem_takeWhile_imp hx2
    exact h3
  rw [show (String.mk ((u.data.takeWhile fun c => !(c == '?')).takeWhile
      fun c => !(c == Char.ofNat 35))).data =
      (u.data.takeWhile fun c => !(c == '?')).takeWhile fun c => !(c == Char.ofNat 35) from rfl]
  rw [List.takeWhile_eq_self_iff.mpr h1, List.takeWhile_idem]

/-- Membership in the html container after one `process_endpoint` call. -/
theorem process_endpoint_html_mem (st : CrawlState) (u k : String) :
    k ∈ (process_endpoint st u).html_pages ↔
      k ∈ st.html_pages ∨ classify_endpoint u = Category.html ∧ clean_url u = k := by
  cases h : classify_endpoint u with
  | html =>
    simp only [process_endpoint, h, true_and]
    split
    · next hc =>
      have hm : clean_url u ∈ st.html_pages := List.elem_iff.mp hc
      constructor
      · exact fun hk => Or.inl hk
      · rintro (hk | rfl)
        · exact hk
        · exact hm
    · next hc =>
      simp [List.mem_append, eq_comm]
  | backend =>
    simp only [process_endpoint, h]
    split <;> simp
  | unknown =>
    simp only [process_endpoint, h]
    simp

/-- Membership in the backend container after one `process_endpoint` call. -/
theorem process_endpoint_backend_mem (st : CrawlState) (u k : String) :
    k ∈ (process_endpoint st u).backend_endpoints ↔
      k ∈ st.backend_endpoints ∨ classify_endpoint u = Category.backend ∧ clean_url u = k := by
  cases h : classify_endpoint u with
  | backend =>
    simp only [process_endpoint, h, true_and]
    split
    · next hc =>
      have hm : clean_url u ∈ st.backend_endpoints := List.elem_iff.mp hc
      constructor
      · exact fun hk => Or.inl hk
      · rintro (hk | rfl)
        · exact hk
        · exact hm
    · next hc =>
      simp [List.mem_append, eq_comm]
  | html =>
    simp only [process_endpoint, h]
    split <;> simp
  | unknown =>
    simp only [process_endpoint, h]
    simp

/-- `process_endpoint` only touches the findings containers and the log. -/
theorem process_endpoint_frame (st : CrawlState) (u : String) :
    (process_endpoint st u).visited_urls = st.visited_urls ∧
    (process_endpoint st u).queue = st.queue ∧
    (process_endpoint st u).functions = st.functions ∧
    (process_endpoint st u).crawled_log = st.crawled_log := by
  cases h : classify_endpoint u with
  | html =>
    simp only [process_endpoint, h]
    refine ⟨?_, ?_, ?_, ?_⟩ <;> (split <;> rfl)
  | backend =>
    simp only [process_endpoint, h]
    refine ⟨?_, ?_, ?_, ?_⟩ <;> (split <;> rfl)
  | unknown => simp [process_endpoint, h]

/-- A canonical key already present in its own category's container makes
`process_endpoint` a no-op (html case). -/
theorem process_endpoint_noop_html (st : CrawlState) (u : String)
    (h : classify_endpoint u = Category.html) (hmem : clean_url u ∈ st.html_pages) :
    process_endpoint st u = st := by
  simp only [process_endpoint, h]
  split
  · rfl
  · next hcf => exact absurd (List.elem_iff.mpr hmem) hcf

/-- A canonical key already present in its own category's container makes
`process_endpoint` a no-op (backend case). -/
theorem process_endpoint_noop_backend (st : CrawlState) (u : String)
    (h : classify_endpoint u = Category.backend) (hmem : clean_url u ∈ st.backend_endpoints) :
    process_endpoint st u = st := by
  simp only [process_endpoint, h]
  split
  · rfl
  · next hcf => exact absurd (List.elem_iff.mpr hmem) hcf

/-- A fresh canonical key appends exactly one html notification. -/
theorem process_endpoint_log_html (st : CrawlState) (u : String)
    (h : classify_endpoint u = Category.html) (hnew : clean_url u ∉ st.html_pages) :
    (process_endpoint st u).log = st.log ++ [("html", clean_url u)] := by
  simp only [process_endpoint, h]
  split
  · next hct => exact absurd (List.elem_iff.mp hct) hnew
  · rfl

/-- A fresh canonical key appends exactly one backend notification. -/
theorem process_endpoint_log_backend (st : CrawlState) (u : String)
    (h : classify_endpoint u = Category.backend) (hnew : clean_url u ∉ st.backend_endpoints) :
    (process_endpoint st u).log = st.log ++ [("backend", clean_url u)] := by
  simp only [process_endpoint, h]
  split
  · next hct => exact absurd (List.elem_iff.mp hct) hnew
  · rfl

/-- Characterization of the html container after folding `process_endpoint`
over a list of URLs. -/
theorem process_foldl_html (urls : List String) :
    ∀ (st : CrawlState) (k : String),
      k ∈ (urls.foldl process_endpoint st).html_pages ↔
        k ∈ st.html_pages ∨ ∃ u ∈ urls, classify_endpoint u = Category.html ∧ clean_url u = k := by
  induction urls with
  | nil => intro st k; simp
  | cons u rest ih =>
    intro st k
    simp only [List.foldl_cons]
    rw [ih, process_endpoint_html_mem]
    simp only [List.exists_mem_cons_iff]
    tauto

/-- Characterization of the backend container after folding `process_endpoint`
over a list of URLs. -/
theorem process_foldl_backend (urls : List String) :
    ∀ (st : CrawlState) (k : String),
      k ∈ (urls.foldl process_endpoint st).backend_endpoints ↔
        k ∈ st.backend_endpoints ∨
          ∃ u ∈ urls, classify_endpoint u = Category.backend ∧ clean_url u = k := by
  induction urls with
  | nil => intro st k; simp
  | cons u rest ih =>
    intro st k
    simp only [List.foldl_cons]
    rw [ih, process_endpoint_backend_mem]
    simp only [List.exists_mem_cons_iff]
    tauto

/-- `setAdd` contains the added element. -/
theorem setAdd_mem_self (l : List String) (x : String) : x ∈ setAdd l x := by
  unfold setAdd
  split
  · next hc => exact List.elem_iff.mp hc
  · simp

/-- `setAdd` preserves membership. -/
theorem setAdd_mem_of_mem {l : List String} {x : String} (y : String) (h : x ∈ l) :
    x ∈ setAdd l y := by
  unfold setAdd
  split
  · exact h
  · simp [h]

/-- Membership is preserved by folding any step that preserves membership. -/
theorem foldl_mem_mono (f : List String → Element → List String)
    (hf : ∀ acc e, ∀ x ∈ acc, x ∈ f acc e) :
    ∀ (doc : List Element) (acc : List String) (x : String), x ∈ acc → x ∈ doc.foldl f acc := by
  intro doc
  induction doc with
  | nil => intro acc x h; exact h
  | cons e rest ih => intro acc x h; exact ih _ _ (hf acc e x h)

/-! ## Claim theorems -/

/-- Claim C8: canonicalization (`url.split('?')[0].split('#')[0]`, stripping the
query string and fragment) is idempotent: for every URL string `u`,
`clean_url (clean_url u) = clean_url u`. -/
theorem claim8_canonicalize_idem (u : String) : clean_url (clean_url u) = clean_url u :=
  clean_clean u

/-- Claim C5 is falsified on the code for analysis failures: in `envC5` the
script fetch succeeds, the first API-call target `/api/a` is resolved,
validated and inserted into `backend_endpoints`, and only then does
resolving the malformed second target `http://[` raise — the bare `except`
returns the empty set, so the analysis failed and the function-name set is
empty, yet an endpoint WAS contributed to the findings store. -/
theorem claim5_counterexample :
    (analyze_js envC5 "x.test" emptyFindings "http://x.test/app.js").2 = [] ∧
    (apiLoop envC5 "x.test" "http://x.test/app.js"
        (apiFindAll scriptC5.data) emptyFindings).2 = false ∧
    (analyze_js envC5 "x.test" emptyFindings "http://x.test/app.js").1.backend_endpoints =
      ["http://x.test/api/a"] := by
  decide

/-- Claim C5 amended: `analyze_js` is a total function (no exception escapes)
and returns the empty function-name set on every failure; a fetch failure
(oracle `none`) additionally leaves the findings store untouched, but when
the analysis itself fails partway — a library exception while resolving an
extracted API-call target, recorded by `apiLoop` returning `false` — the
endpoint insertions made before the failing target remain in the store. -/
theorem claim5_amended (env : Env) (domain : String) (st : CrawlState) (url : String) :
    (env.fetchScript url = none → analyze_js env domain st url = (st, [])) ∧
    (∀ content, env.fetchScript url = some content →
      ∀ st1 : CrawlState,
        apiLoop env domain url (apiFindAll content.data) st = (st1, false) →
        analyze_js env domain st url = (st1, [])) := by
  constructor
  · intro h
    simp [analyze_js, h]
  · intro content hc st1 hloop
    unfold analyze_js
    rw [hc]
    dsimp only
    rw [hloop]

/-- Witness for the amended C5: both failure modes at concrete inputs — a fetch
failure in `envC1` leaves the state untouched, and the aborted analysis in
`envC5` keeps its partial insertions while returning the empty set. -/
theorem claim5_witness :
    analyze_js envC1 "x.test" emptyFindings "http://x.test/app.js" = (emptyFindings, []) ∧
    analyze_js envC5 "x.test" emptyFindings "http://x.test/app.js" =
      ((apiLoop envC5 "x.test" "http://x.test/app.js"
          (apiFindAll scriptC5.data) emptyFindings).1, []) :=
  ⟨(claim5_amended envC1 "x.test" emptyFindings "http://x.test/app.js").1 rfl,
   (claim5_amended envC5 "x.test" emptyFindings "http://x.test/app.js").2 scriptC5 (by decide)
     (apiLoop envC5 "x.test" "http://x.test/app.js"
        (apiFindAll scriptC5.data) emptyFindings).1 (by decide)⟩

/-- Claim C1 is falsified on the code: crawling `http://x.test/foo` whose page
links to `http://x.test/foo?action=1` classifies the two full URLs into
different categories, and their shared canonical key ends up in *both*
`html_pages` and `backend_endpoints` (`process_endpoint` checks only its own
category's container). -/
theorem claim1_counterexample :
    "http://x.test/foo" ∈ (crawl envC1 "http://x.test/foo" 3 5).html_pages ∧
      "http://x.test/foo" ∈ (crawl envC1 "http://x.test/foo" 3 5).backend_endpoints := by
  decide

/-- Claim C1 amended: each findings container individually holds exactly the
canonical keys of inserted URLs of its own classification — so the two
containers are disjoint only when no canonical key is reached both by an
html-classified and by a backend-classified full URL; when two distinct full
URLs sharing a canonical key are classified into different categories, the
key appears in both containers. -/
theorem claim1_amended (urls : List String) (k : String) :
    (k ∈ (urls.foldl process_endpoint emptyFindings).html_pages ↔
      ∃ u ∈ urls, classify_endpoint u = Category.html ∧ clean_url u = k) ∧
    (k ∈ (urls.foldl process_endpoint emptyFindings).backend_endpoints ↔
      ∃ u ∈ urls, classify_endpoint u = Category.backend ∧ clean_url u = k) := by
  constructor
  · rw [process_foldl_html]
    simp [emptyFindings]
  · rw [process_foldl_backend]
    simp [emptyFindings]

/-- Claim C10: an element of one of the six scanned kinds that lacks its
inspected attribute resolves the empty string against the base URL — which
`urljoin` returns unchanged — so the base URL itself lands in the extracted
link set whenever it passes the validator. -/
theorem claim10_missing_attr (env : Env) (domain : String) (doc : List Element) (base : String)
    (e : Element) (a : String) (he : e ∈ doc) (hn : e.name ∈ linkElementNames)
    (ha : attrFor e.name = some a) (hmiss : e.attrs.lookup a = none)
    (hvalid : is_valid_url env.parse domain base = true) :
    base ∈ find_links env domain doc base := by
  obtain ⟨l1, l2, rfl⟩ := List.append_of_mem he
  unfold find_links
  rw [List.foldl_append, List.foldl_cons]
  have hstep : ∀ (acc : List String) (e2 : Element), ∀ x ∈ acc,
      x ∈ (fun links e3 =>
        if linkElementNames.contains e3.name then
          match attrFor e3.name with
          | some a3 =>
            let url := urljoin env.resolve base (getAttr e3 a3)
            if is_valid_url env.parse domain url then setAdd links url else links
          | none => links
        else links) acc e2 := by
    intro acc e2 x hx
    dsimp only
    split
    · split
      · split
        · exact setAdd_mem_of_mem _ hx
        · exact hx
      · exact hx
    · exact hx
  apply foldl_mem_mono _ hstep
  have hc : linkElementNames.contains e.name = true := List.elem_iff.mpr hn
  dsimp only
  rw [if_pos hc, ha]
  dsimp only
  rw [show getAttr e a = "" by simp [getAttr, hmiss]]
  rw [show urljoin env.resolve base "" = base from rfl]
  rw [if_pos hvalid]
  exact setAdd_mem_self _ base

/-- Witness for C10: a `form` element with no `action` attribute contributes
the (valid) base URL. -/
theorem claim10_witness :
    "http://x.test/foo" ∈
      find_links envC1 "x.test" [{ name := "form", attrs := [] }] "http://x.test/foo" :=
  claim10_missing_attr envC1 "x.test" [{ name := "form", attrs := [] }] "http://x.test/foo"
    { name := "form", attrs := [] } "action" (by decide) (by decide) rfl rfl (by decide)

/-! ## Frame lemmas for the crawl loop -/

/-- A projection preserved by each fold step is preserved by the fold. -/
theorem foldl_proj {α β : Type} (f : CrawlState → α → CrawlState) (proj : CrawlState → β)
    (hf : ∀ st a, proj (f st a) = proj st) :
    ∀ (l : List α) (st : CrawlState), proj (l.foldl f st) = proj st := by
  intro l
  induction l with
  | nil => intro st; rfl
  | cons a rest ih => intro st; rw [List.foldl_cons, ih, hf]

/-- The script pass of the crawl loop is dead code: `script.src` is the
child-tag lookup `scriptSrcTag`, which is always `None`, so every element
falls through to the `else` and the state is returned unchanged. -/
theorem processScripts_eq (env : Env) (domain page : String) (doc : List Element)
    (st : CrawlState) : processScripts env domain page doc st = st := by
  induction doc generalizing st with
  | nil => rfl
  | cons e rest ih =>
    show processScripts env domain page rest
      (if e.name == "script" then st else st) = st
    rw [ite_self]
    exact ih st

/-- One step of `processLinks` preserves the visited set, the functions and the
ghost log, and only appends one `(link, depth+1)` entry to the frontier. -/
theorem processLinks_step (depth : Nat) (st2 : CrawlState) (link : String) :
    ((fun (st2 : CrawlState) (link : String) =>
      let st3 := process_endpoint st2 link
      if st3.visited_urls.contains link then st3
      else { st3 with queue := st3.queue ++ [(link, depth + 1)] }) st2 link).visited_urls
        = st2.visited_urls ∧
    ((fun (st2 : CrawlState) (link : String) =>
      let st3 := process_endpoint st2 link
      if st3.visited_urls.contains link then st3
      else { st3 with queue := st3.queue ++ [(link, depth + 1)] }) st2 link).functions
        = st2.functions ∧
    ((fun (st2 : CrawlState) (link : String) =>
      let st3 := process_endpoint st2 link
      if st3.visited_urls.contains link then st3
      else { st3 with queue := st3.queue ++ [(link, depth + 1)] }) st2 link).crawled_log
        = st2.crawled_log ∧
    (((fun (st2 : CrawlState) (link : String) =>
      let st3 := process_endpoint st2 link
      if st3.visited_urls.contains link then st3
      else { st3 with queue := st3.queue ++ [(link, depth + 1)] }) st2 link).queue = st2.queue ∨
      ((fun (st2 : CrawlState) (link : String) =>
      let st3 := process_endpoint st2 link
      if st3.visited_urls.contains link then st3
      else { st3 with queue := st3.queue ++ [(link, depth + 1)] }) st2 link).queue
        = st2.queue ++ [(link, depth + 1)]) := by
  dsimp only
  have hframe := process_endpoint_frame st2 link
  split
  · exact ⟨hframe.1, hframe.2.2.1, hframe.2.2.2, Or.inl hframe.2.1⟩
  · refine ⟨hframe.1, hframe.2.2.1, hframe.2.2.2, Or.inr ?_⟩
    show (process_endpoint st2 link).queue ++ [(link, depth + 1)] =
      st2.queue ++ [(link, depth + 1)]
    rw [hframe.2.1]

/-- `processLinks` preserves the visited set, functions and ghost log. -/
theorem processLinks_frame (depth : Nat) (links : List String) (st : CrawlState) :
    (processLinks depth links st).visited_urls = st.visited_urls ∧
    (processLinks depth links st).functions = st.functions ∧
    (processLinks depth links st).crawled_log = st.crawled_log := by
  refine ⟨?_, ?_, ?_⟩
  · exact foldl_proj _ (fun s => s.visited_urls)
      (fun st2 link => (processLinks_step depth st2 link).1) links st
  · exact foldl_proj _ (fun s => s.functions)
      (fun st2 link => (processLinks_step depth st2 link).2.1) links st
  · exact foldl_proj _ (fun s => s.crawled_log)
      (fun st2 link => (processLinks_step depth st2 link).2.2.1) links st

/-- Frontier entries after `processLinks` either come from the initial frontier
or are one of the processed links enqueued at depth `depth + 1`. -/
theorem processLinks_queue_mem (depth : Nat) (links : List String) :
    ∀ (st : CrawlState) (p : String × Nat), p ∈ (processLinks depth links st).queue →
      p ∈ st.queue ∨ p.1 ∈ links ∧ p.2 = depth + 1 := by
  induction links with
  | nil => intro st p h; exact Or.inl h
  | cons l rest ih =>
    intro st p h
    have hlift : processLinks depth (l :: rest) st =
        processLinks depth rest
          (let st3 := process_endpoint st l
           if st3.visited_urls.contains l then st3
           else { st3 with queue := st3.queue ++ [(l, depth + 1)] }) := rfl
    rw [hlift] at h
    rcases ih _ p h with h1 | h2
    · rcases (processLinks_step depth st l).2.2.2 with hq | hq
      · rw [hq] at h1
        exact Or.inl h1
      · rw [hq] at h1
        rcases List.mem_append.mp h1 with h3 | h3
        · exact Or.inl h3
        · right
          have h4 : p = (l, depth + 1) := List.mem_singleton.mp h3
          rw [h4]
          exact ⟨List.mem_cons_self _ _, rfl⟩
    · exact Or.inr ⟨List.mem_cons_of_mem _ h2.1, h2.2⟩

/-- `processScripts` preserves the visited set, the frontier and the ghost log. -/
theorem processScripts_frame (env : Env) (domain page : String) (doc : List Element)
    (st : CrawlState) :
    (processScripts env domain page doc st).visited_urls = st.visited_urls ∧
    (processScripts env domain page doc st).queue = st.queue ∧
    (processScripts env domain page doc st).crawled_log = st.crawled_log := by
  rw [processScripts_eq]
  exact ⟨rfl, rfl, rfl⟩

/-- The ghost log of processed entries only grows during the crawl loop. -/
theorem crawlLoop_crawled_mono (env : Env) (domain : String) (maxd : Nat) :
    ∀ (fuel : Nat) (st : CrawlState) (p : String × Nat),
      p ∈ st.crawled_log → p ∈ (crawlLoop env domain maxd fuel st).crawled_log := by
  intro fuel
  induction fuel with
  | zero => intro st p h; exact h
  | succ fuel ih =>
    intro st p h
    rw [crawlLoop]
    cases hq : st.queue with
    | nil => exact h
    | cons hd rest =>
      obtain ⟨url, depth⟩ := hd
      dsimp only
      split
      · exact ih _ p h
      · cases hf : env.fetchPage url with
        | none =>
          apply ih
          exact List.mem_append.mpr (Or.inl h)
        | some doc =>
          apply ih
          rw [(processScripts_frame env domain url doc _).2.2]
          rw [(processLinks_frame depth _ _).2.2]
          rw [(process_endpoint_frame _ url).2.2.2]
          exact List.mem_append.mpr (Or.inl h)

/-- Every entry recorded as processed by the crawl loop has depth at most the
configured maximum (the guard is `depth > max_depth`, i.e. strict). -/
theorem crawlLoop_depth_le (env : Env) (domain : String) (maxd : Nat) :
    ∀ (fuel : Nat) (st : CrawlState),
      (∀ p ∈ st.crawled_log, p.2 ≤ maxd) →
      ∀ p ∈ (crawlLoop env domain maxd fuel st).crawled_log, p.2 ≤ maxd := by
  intro fuel
  induction fuel with
  | zero => intro st h; exact h
  | succ fuel ih =>
    intro st h
    rw [crawlLoop]
    cases hq : st.queue with
    | nil => exact h
    | cons hd rest =>
      obtain ⟨url, depth⟩ := hd
      dsimp only
      split
      · exact ih _ h
      · next hcond =>
        simp only [Bool.or_eq_true, decide_eq_true_eq, not_or] at hcond
        have hdep : depth ≤ maxd := Nat.le_of_not_lt hcond.2
        have h2 : ∀ p ∈ st.crawled_log ++ [(url, depth)], p.2 ≤ maxd := by
          intro p hp
          rcases List.mem_append.mp hp with h3 | h3
          · exact h p h3
          · rw [List.mem_singleton.mp h3]
            exact hdep
        cases hf : env.fetchPage url with
        | none => exact ih _ h2
        | some doc =>
          apply ih
          rw [(processScripts_frame env domain url doc _).2.2]
          rw [(processLinks_frame depth _ _).2.2]
          rw [(process_endpoint_frame _ url).2.2.2]
          exact h2

/-- With a configured bound of zero, every processed entry is the seed at depth
zero: all appended frontier entries carry depth at least one, and the guard
admits only depth-zero entries. -/
theorem crawlLoop_seed_only (env : Env) (domain base : String) :
    ∀ (fuel : Nat) (st : CrawlState),
      (∀ p ∈ st.queue, p = (base, 0) ∨ 1 ≤ p.2) →
      (∀ p ∈ st.crawled_log, p = (base, 0)) →
      ∀ p ∈ (crawlLoop env domain 0 fuel st).crawled_log, p = (base, 0) := by
  intro fuel
  induction fuel with
  | zero => intro st _ hlog; exact hlog
  | succ fuel ih =>
    intro st hqinv hlog
    rw [crawlLoop]
    cases hq : st.queue with
    | nil => exact hlog
    | cons hd rest =>
      obtain ⟨url, depth⟩ := hd
      have hrest : ∀ p ∈ rest, p = (base, 0) ∨ 1 ≤ p.2 := by
        intro p hp
        exact hqinv p (by rw [hq]; exact List.mem_cons_of_mem _ hp)
      dsimp only
      split
      · exact ih _ hrest hlog
      · next hcond =>
        simp only [Bool.or_eq_true, decide_eq_true_eq, not_or] at hcond
        have hdep : depth = 0 := Nat.eq_zero_of_not_pos hcond.2
        have hhd : (url, depth) = (base, 0) := by
          rcases hqinv (url, depth) (by rw [hq]; exact List.mem_cons_self _ _) with h1 | h1
          · exact h1
          · exact absurd h1 (by simp [hdep])
        have hlog2 : ∀ p ∈ st.crawled_log ++ [(url, depth)], p = (base, 0) := by
          intro p hp
          rcases List.mem_append.mp hp with h3 | h3
          · exact hlog p h3
          · rw [List.mem_singleton.mp h3]
            exact hhd
        cases hf : env.fetchPage url with
        | none => exact ih _ hrest hlog2
        | some doc =>
          apply ih
          · intro p hp
            rw [(processScripts_frame env domain url doc _).2.1] at hp
            rcases processLinks_queue_mem depth _ _ p hp with h4 | h4
            · rw [(process_endpoint_frame _ url).2.1] at h4
              exact hrest p h4
            · right
              rw [h4.2]
              exact Nat.le_add_left 1 depth
          · intro p hp
            rw [(processScripts_frame env domain url doc _).2.2] at hp
            rw [(processLinks_frame depth _ _).2.2] at hp
            rw [(process_endpoint_frame _ url).2.2.2] at hp
            exact hlog2 p hp

/-- Claim C3: the crawl loop processes (marks visited, records in the ghost log
and fetches) a dequeued entry only when its depth is at most the configured
maximum — the skip comparison is strict `depth > max_depth` — and a
configured bound of zero admits exactly the seed entry: every processed
entry is then `(base, 0)`, while the seed itself is processed as soon as one
loop iteration runs. -/
theorem claim3_depth_guard (env : Env) (base : String) (maxd fuel : Nat) :
    (∀ p ∈ (crawl env base maxd fuel).crawled_log, p.2 ≤ maxd) ∧
    (maxd = 0 → ∀ p ∈ (crawl env base maxd fuel).crawled_log, p = (base, 0)) ∧
    (1 ≤ fuel → (base, 0) ∈ (crawl env base maxd fuel).crawled_log) := by
  refine ⟨?_, ?_, ?_⟩
  · exact crawlLoop_depth_le env _ maxd fuel (initState base) (by simp [initState])
  · rintro rfl
    apply crawlLoop_seed_only env _ base fuel (initState base)
    · intro p hp
      simp only [initState, List.mem_singleton] at hp
      exact Or.inl hp
    · intro p hp
      simp [initState] at hp
  · intro hfuel
    obtain ⟨fuel2, rfl⟩ : ∃ k, fuel = k + 1 := ⟨fuel - 1, by omega⟩
    unfold crawl
    rw [crawlLoop]
    dsimp only [initState]
    rw [if_neg (by simp)]
    cases hf : env.fetchPage base with
    | none =>
      apply crawlLoop_crawled_mono
      simp
    | some doc =>
      apply crawlLoop_crawled_mono
      rw [(processScripts_frame env (env.parse base).netloc base doc _).2.2]
      rw [(processLinks_frame 0 _ _).2.2]
      rw [(process_endpoint_frame _ base).2.2.2]
      simp

/-- Witness for C3: with bound zero on the `envC1` fixture the seed is processed
at depth zero and the depth bound holds for it. -/
theorem claim3_witness :
    ("http://x.test/foo", 0) ∈ (crawl envC1 "http://x.test/foo" 0 5).crawled_log ∧
      (("http://x.test/foo", 0) : String × Nat).2 ≤ 0 := by
  have h := claim3_depth_guard envC1 "http://x.test/foo" 0 5
  have hmem := h.2.2 (by omega)
  exact ⟨hmem, h.1 _ hmem⟩

/-! ## Exactly-once notifications (C6) -/

/-- Every notification appended by `process_endpoint` carries tag `html` or
`backend`. -/
theorem process_endpoint_log_tag (st : CrawlState) (u : String) :
    ∀ e ∈ (process_endpoint st u).log, e ∈ st.log ∨ e.1 = "html" ∨ e.1 = "backend" := by
  intro e he
  cases hcl : classify_endpoint u with
  | html =>
    by_cases hmem : clean_url u ∈ st.html_pages
    · rw [process_endpoint_noop_html st u hcl hmem] at he
      exact Or.inl he
    · rw [process_endpoint_log_html st u hcl hmem] at he
      rcases List.mem_append.mp he with h1 | h1
      · exact Or.inl h1
      · rw [List.mem_singleton.mp h1]
        exact Or.inr (Or.inl rfl)
  | backend =>
    by_cases hmem : clean_url u ∈ st.backend_endpoints
    · rw [process_endpoint_noop_backend st u hcl hmem] at he
      exact Or.inl he
    · rw [process_endpoint_log_backend st u hcl hmem] at he
      rcases List.mem_append.mp he with h1 | h1
      · exact Or.inl h1
      · rw [List.mem_singleton.mp h1]
        exact Or.inr (Or.inr rfl)
  | unknown =>
    rw [show process_endpoint st u = st by simp [process_endpoint, hcl]] at he
    exact Or.inl he

/-- Every notification appended by `processLinks` carries tag `html` or
`backend`. -/
theorem processLinks_log_tag (depth : Nat) (links : List String) :
    ∀ (st : CrawlState), ∀ e ∈ (processLinks depth links st).log,
      e ∈ st.log ∨ e.1 = "html" ∨ e.1 = "backend" := by
  induction links with
  | nil => intro st e he; exact Or.inl he
  | cons l rest ih =>
    intro st e he
    have hlift : processLinks depth (l :: rest) st =
        processLinks depth rest
          (let st3 := process_endpoint st l
           if st3.visited_urls.contains l then st3
           else { st3 with queue := st3.queue ++ [(l, depth + 1)] }) := rfl
    rw [hlift] at he
    rcases ih _ e he with h1 | h1
    · have h2 : e ∈ (process_endpoint st l).log := by
        revert h1
        dsimp only
        split
        · exact fun h => h
        · exact fun h => h
      exact process_endpoint_log_tag st l e h2
    · exact Or.inr h1

/-- The crawl loop never touches the `functions` container, and every
notification it emits carries tag `html` or `backend`: the script branch at
line 173 is dead (`scriptSrcTag`), so the merge loop of lines 176-179 never
runs. -/
theorem crawlLoop_log_tags (env : Env) (domain : String) (maxd : Nat) :
    ∀ (fuel : Nat) (st : CrawlState),
      (crawlLoop env domain maxd fuel st).functions = st.functions ∧
      ∀ e ∈ (crawlLoop env domain maxd fuel st).log,
        e ∈ st.log ∨ e.1 = "html" ∨ e.1 = "backend" := by
  intro fuel
  induction fuel with
  | zero => intro st; exact ⟨rfl, fun e he => Or.inl he⟩
  | succ fuel ih =>
    intro st
    rw [crawlLoop]
    cases hq : st.queue with
    | nil => exact ⟨rfl, fun e he => Or.inl he⟩
    | cons hd rest =>
      obtain ⟨url, depth⟩ := hd
      dsimp only
      split
      · exact ih _
      · cases hf : env.fetchPage url with
        | none => exact ih _
        | some doc =>
          refine ⟨?_, ?_⟩
          · rw [(ih _).1, processScripts_eq]
            rw [(processLinks_frame depth _ _).2.1]
            rw [(process_endpoint_frame _ url).2.2.1]
          · intro e he
            rcases (ih _).2 e he with h1 | h1
            · rw [processScripts_eq] at h1
              rcases processLinks_log_tag depth _ _ e h1 with h2 | h2
              · rcases process_endpoint_log_tag _ url e h2 with h3 | h3
                · exact Or.inl h3
                · exact Or.inr h3
              · exact Or.inr h2
            · exact Or.inr h1

/-- Claim C6 is falsified on the code for canonical keys: crawling `envC1`
inserts the canonical key `http://x.test/foo` first as `html` (from the
page URL itself) and then again as `backend` (from the linked full URL that
shares the key); the second insert of the already-present key is not a
no-op and emits a second first-discovery notification. -/
theorem claim6_counterexample :
    (crawl envC1 "http://x.test/foo" 3 5).log =
      [("html", "http://x.test/foo"), ("backend", "http://x.test/foo")] ∧
    ((crawl envC1 "http://x.test/foo" 3 5).log.filter
        (fun e => e.2 == "http://x.test/foo")).length = 2 := by
  decide

/-- Claim C6 amended: insertion is exactly-once only per category container —
re-inserting a canonical key already present in its own container is a
no-op with no notification, and a fresh key appends exactly one
notification — but the two containers are guarded separately, so a key
classified into both categories is notified once per category.  Function
names are never inserted or notified during a crawl at all: line 173 tests
`script.src`, a BeautifulSoup child-tag lookup that is always `None` for
script elements, so the merge loop of lines 176-179 is unreachable — the
`functions` container stays empty and no `function` notification is ever
emitted. -/
theorem claim6_amended (st : CrawlState) (u : String) (env : Env) (base : String)
    (maxd fuel : Nat) :
    (classify_endpoint u = Category.html → clean_url u ∈ st.html_pages →
      process_endpoint st u = st) ∧
    (classify_endpoint u = Category.html → clean_url u ∉ st.html_pages →
      (process_endpoint st u).log = st.log ++ [("html", clean_url u)]) ∧
    (classify_endpoint u = Category.backend → clean_url u ∈ st.backend_endpoints →
      process_endpoint st u = st) ∧
    (classify_endpoint u = Category.backend → clean_url u ∉ st.backend_endpoints →
      (process_endpoint st u).log = st.log ++ [("backend", clean_url u)]) ∧
    (crawl env base maxd fuel).functions = [] ∧
    (∀ e ∈ (crawl env base maxd fuel).log, e.1 ≠ "function") := by
  refine ⟨process_endpoint_noop_html st u, process_endpoint_log_html st u,
    process_endpoint_noop_backend st u, process_endpoint_log_backend st u, ?_, ?_⟩
  · exact (crawlLoop_log_tags env _ maxd fuel (initState base)).1
  · intro e he heq
    rcases (crawlLoop_log_tags env _ maxd fuel (initState base)).2 e he with h1 | h1 | h1
    · simp [initState] at h1
    · rw [heq] at h1
      exact absurd h1 (by decide)
    · rw [heq] at h1
      exact absurd h1 (by decide)

/-- Witness for the amended C6: re-inserting a key already stored in
`html_pages` is a no-op, and the concrete `envC1` crawl stores no function
names. -/
theorem claim6_witness :
    process_endpoint
        { emptyFindings with html_pages := ["http://x.test/foo"] } "http://x.test/foo" =
      { emptyFindings with html_pages := ["http://x.test/foo"] } ∧
    (crawl envC1 "http://x.test/foo" 3 5).functions = [] :=
  ⟨(claim6_amended { emptyFindings with html_pages := ["http://x.test/foo"] }
      "http://x.test/foo" envC1 "http://x.test/foo" 3 5).1 (by decide) (by decide),
   (claim6_amended { emptyFindings with html_pages := ["http://x.test/foo"] }
      "http://x.test/foo" envC1 "http://x.test/foo" 3 5).2.2.2.2.1⟩

/-! ## Domain restriction (C2) -/

/-- Unfolding of a successful validator check. -/
theorem is_valid_url_spec (parse : String → UrlParts) (domain u : String)
    (h : is_valid_url parse domain u = true) :
    (parse u).netloc = domain ∧ ((parse u).scheme = "http" ∨ (parse u).scheme = "https") := by
  simp only [is_valid_url, Bool.and_eq_true, Bool.or_eq_true, beq_iff_eq] at h
  exact h

/-- Decomposition of `setAdd` membership. -/
theorem mem_setAdd (l : List String) (x y : String) (h : x ∈ setAdd l y) : x ∈ l ∨ x = y := by
  unfold setAdd at h
  split at h
  · exact Or.inl h
  · rcases List.mem_append.mp h with h1 | h1
    · exact Or.inl h1
    · exact Or.inr (List.mem_singleton.mp h1)

/-- Inserting a URL whose canonical key satisfies the domain property preserves
the store invariant. -/
theorem process_endpoint_storeOk (env : Env) (domain : String) (st : CrawlState) (u : String)
    (hst : StoreOk env domain st)
    (hu : (env.parse (clean_url u)).netloc = domain ∧
      ((env.parse (clean_url u)).scheme = "http" ∨ (env.parse (clean_url u)).scheme = "https")) :
    StoreOk env domain (process_endpoint st u) := by
  constructor
  · intro k hk
    rcases (process_endpoint_html_mem st u k).mp hk with h1 | ⟨-, rfl⟩
    · exact hst.1 k h1
    · exact hu
  · intro k hk
    rcases (process_endpoint_backend_mem st u k).mp hk with h1 | ⟨-, rfl⟩
    · exact hst.2 k h1
    · exact hu

/-- Every URL returned by the link extractor has passed the validator. -/
theorem find_links_valid (env : Env) (domain : String) (doc : List Element) (b : String) :
    ∀ x ∈ find_links env domain doc b, is_valid_url env.parse domain x = true := by
  have main : ∀ (d2 : List Element) (acc : List String),
      (∀ x ∈ acc, is_valid_url env.parse domain x = true) →
      ∀ x ∈ d2.foldl
        (fun links e =>
          if linkElementNames.contains e.name then
            match attrFor e.name with
            | some a =>
              let url := urljoin env.resolve b (getAttr e a)
              if is_valid_url env.parse domain url then setAdd links url else links
            | none => links
          else links) acc, is_valid_url env.parse domain x = true := by
    intro d2
    induction d2 with
    | nil => intro acc hacc; exact hacc
    | cons e rest ih =>
      intro acc hacc
      rw [List.foldl_cons]
      apply ih
      dsimp only
      split
      · split
        · split
          · next hval =>
            intro x hx
            rcases mem_setAdd _ _ _ hx with h1 | h1
            · exact hacc x h1
            · rw [h1]
              exact hval
          · exact hacc
        · exact hacc
      · exact hacc
  intro x hx
  exact main doc [] (by intro y hy; simp at hy) x hx

/-- `processLinks` preserves the store invariant when every processed link has
passed the validator. -/
theorem processLinks_storeOk (env : Env) (domain : String)
    (hclean : ∀ u, env.parse (clean_url u) = env.parse u) (depth : Nat) :
    ∀ (links : List String) (st : CrawlState),
      (∀ x ∈ links, is_valid_url env.parse domain x = true) →
      StoreOk env domain st →
      StoreOk env domain (processLinks depth links st) := by
  intro links
  induction links with
  | nil => intro st _ h; exact h
  | cons l rest ih =>
    intro st hlinks h
    have hlift : processLinks depth (l :: rest) st =
        processLinks depth rest
          (let st3 := process_endpoint st l
           if st3.visited_urls.contains l then st3
           else { st3 with queue := st3.queue ++ [(l, depth + 1)] }) := rfl
    rw [hlift]
    apply ih _ (fun x hx => hlinks x (List.mem_cons_of_mem _ hx))
    have h3 : StoreOk env domain (process_endpoint st l) := by
      apply process_endpoint_storeOk env domain st l h
      have hspec := is_valid_url_spec env.parse domain l (hlinks l (List.mem_cons_self _ _))
      rw [hclean]
      exact hspec
    dsimp only
    split
    · exact h3
    · exact h3

/-- `processScripts` preserves the store invariant (it is dead code). -/
theorem processScripts_storeOk (env : Env) (domain page : String) (doc : List Element)
    (_hclean : ∀ u, env.parse (clean_url u) = env.parse u) :
    ∀ (st : CrawlState), StoreOk env domain st →
      StoreOk env domain (processScripts env domain page doc st) := by
  intro st h
  rw [processScripts_eq]
  exact h

/-- Main loop invariant for the domain restriction: assuming the fetch oracle
succeeds only on http(s) URLs (as `requests.get` does), canonicalization
commutes with URL parsing, and the link-iteration oracle only permutes or
selects from its input, the store invariant is maintained. -/
theorem crawlLoop_storeOk (env : Env) (base domain : String) (maxd : Nat)
    (hdom : (env.parse base).netloc = domain)
    (hfetch : ∀ u, env.fetchPage u ≠ none →
      (env.parse u).scheme = "http" ∨ (env.parse u).scheme = "https")
    (hclean : ∀ u, env.parse (clean_url u) = env.parse u)
    (hlo : ∀ (l : List String) (x : String), x ∈ env.linkOrder l → x ∈ l) :
    ∀ (fuel : Nat) (st : CrawlState),
      StoreOk env domain st → QueueOk env domain base st →
      StoreOk env domain (crawlLoop env domain maxd fuel st) := by
  intro fuel
  induction fuel with
  | zero => intro st hst _; exact hst
  | succ fuel ih =>
    intro st hst hq
    rw [crawlLoop]
    cases hqe : st.queue with
    | nil => exact hst
    | cons hd rest =>
      obtain ⟨url, depth⟩ := hd
      have hrest : ∀ p ∈ rest, p.1 = base ∨ is_valid_url env.parse domain p.1 = true := by
        intro p hp
        exact hq p (by rw [hqe]; exact List.mem_cons_of_mem _ hp)
      dsimp only
      split
      · exact ih _ hst hrest
      · cases hf : env.fetchPage url with
        | none => exact ih _ hst hrest
        | some doc =>
          apply ih
          · -- store invariant is carried through the body
            have hurl : (env.parse (clean_url url)).netloc = domain ∧
                ((env.parse (clean_url url)).scheme = "http" ∨
                  (env.parse (clean_url url)).scheme = "https") := by
              rw [hclean]
              rcases hq (url, depth) (by rw [hqe]; exact List.mem_cons_self _ _) with h1 | h1
              · have h2 : url = base := h1
                rw [h2]
                refine ⟨hdom, ?_⟩
                apply hfetch
                rw [← h2, hf]
                intro hcontra
                exact Option.noConfusion hcontra
              · exact is_valid_url_spec env.parse domain url h1
            apply processScripts_storeOk env domain url doc hclean
            apply processLinks_storeOk env domain hclean depth
            · intro x hx
              exact find_links_valid env domain doc url x (hlo _ x hx)
            · exact process_endpoint_storeOk env domain _ url hst hurl
          · -- queue invariant is carried through the body
            intro p hp
            rw [(processScripts_frame env domain url doc _).2.1] at hp
            rcases processLinks_queue_mem depth _ _ p hp with h4 | h4
            · rw [(process_endpoint_frame _ url).2.1] at h4
              exact hrest p h4
            · right
              exact find_links_valid env domain doc url p.1 (hlo _ p.1 h4.1)

/-- Claim C2: every URL stored in `html_pages` or `backend_endpoints` has host
equal to the target domain and scheme http or https; in particular a
discovered link on a different host is never stored.  The hypotheses model
the external libraries: `requests.get` raises on non-http(s) schemes (so a
successful page fetch implies an http(s) URL), `urlparse` ignores the query
string and fragment when extracting scheme and netloc, and set iteration
only reorders its input. -/
theorem claim2_store_valid (env : Env) (base : String) (maxd fuel : Nat)
    (hfetch : ∀ u, env.fetchPage u ≠ none →
      (env.parse u).scheme = "http" ∨ (env.parse u).scheme = "https")
    (hclean : ∀ u, env.parse (clean_url u) = env.parse u)
    (hlo : ∀ (l : List String) (x : String), x ∈ env.linkOrder l → x ∈ l)
    (k : String)
    (hk : k ∈ (crawl env base maxd fuel).html_pages ∨
      k ∈ (crawl env base maxd fuel).backend_endpoints) :
    (env.parse k).netloc = (env.parse base).netloc ∧
      ((env.parse k).scheme = "http" ∨ (env.parse k).scheme = "https") := by
  have hmain := crawlLoop_storeOk env base ((env.parse base).netloc) maxd rfl hfetch hclean hlo
    fuel (initState base)
    (by constructor <;> (intro x hx; simp [initState] at hx))
    (by intro p hp; simp only [initState, List.mem_singleton] at hp; exact Or.inl (by rw [hp]))
  rcases hk with h | h
  · exact hmain.1 k h
  · exact hmain.2 k h

/-- The `demoParse` fixture ignores query and fragment, like real `urlparse`. -/
theorem demoParse_clean (u : String) : demoParse (clean_url u) = demoParse u := by
  unfold demoParse
  rw [clean_clean]

/-- Witness for C2: in the `envC1` run the stored page key has host `x.test`
and scheme `http`. -/
theorem claim2_witness :
    (envC1.parse "http://x.test/foo").netloc = (envC1.parse "http://x.test/foo").netloc ∧
      ((envC1.parse "http://x.test/foo").scheme = "http" ∨
        (envC1.parse "http://x.test/foo").scheme = "https") := by
  apply claim2_store_valid envC1 "http://x.test/foo" 3 5
  · intro u h
    by_cases hu : u = "http://x.test/foo"
    · rw [hu]
      exact Or.inl (by decide)
    · exact absurd (show envC1.fetchPage u = none by simp [envC1, demoEnv, hu]) h
  · exact demoParse_clean
  · intro l x h
    exact h
  · exact Or.inl (by decide)

/-! ## Classifier refinement (C4) -/

/-- `searchAny` succeeds iff the anchored test holds at some suffix. -/
theorem searchAny_iff (p : List Char → Bool) :
    ∀ l : List Char, searchAny p l = true ↔ ∃ t, t <:+ l ∧ p t = true := by
  intro l
  induction l with
  | nil =>
    constructor
    · intro h
      exact ⟨[], List.nil_suffix, h⟩
    · rintro ⟨t, ht, hp⟩
      rw [List.suffix_nil.mp ht] at hp
      exact hp
  | cons c cs ih =>
    simp only [searchAny, Bool.or_eq_true, ih]
    constructor
    · rintro (h | ⟨t, ht, hp⟩)
      · exact ⟨c :: cs, List.suffix_refl _, h⟩
      · exact ⟨t, ht.trans (List.suffix_cons c cs), hp⟩
    · rintro ⟨t, ht, hp⟩
      rcases List.suffix_cons_iff.mp ht with h1 | h1
      · left
        rw [← h1]
        exact hp
      · right
        exact ⟨t, h1, hp⟩

/-- The boundary test as a statement about the head. -/
theorem headNotWord_iff (post : List Char) : isWordOpt post.head? = false ↔ HeadNotWord post := by
  cases post with
  | nil =>
    constructor
    · intro _ c hc
      exact absurd hc (by simp)
    · intro _
      rfl
  | cons c cs =>
    constructor
    · intro h c2 hc2
      rw [show c2 = c from (Option.some_inj.mp hc2).symm]
      exact h
    · intro h
      exact h c rfl

/-- The dot-extension search matches its declarative reading. -/
theorem dotAltSearch_iff (alts : List (List Char)) (l : List Char) :
    dotAltSearch alts l = true ↔ SpecDotExt alts l := by
  unfold dotAltSearch SpecDotExt
  rw [searchAny_iff]
  constructor
  · rintro ⟨t, ht, hp⟩
    split at hp
    · next rest =>
      simp only [extHere, List.any_eq_true, Bool.and_eq_true, Bool.not_eq_true'] at hp
      obtain ⟨w, hw, hpre, hbound⟩ := hp
      obtain ⟨post, hpost⟩ := List.isPrefixOf_iff_prefix.mp hpre
      obtain ⟨pre, hpre2⟩ := ht
      refine ⟨w, hw, pre, post, ?_, ?_⟩
      · rw [← hpre2, ← hpost]
      · rw [← hpost, List.drop_left] at hbound
        exact (headNotWord_iff post).mp hbound
    · exact absurd hp (by simp)
  · rintro ⟨w, hw, pre, post, hl, hb⟩
    refine ⟨'.' :: (w ++ post), ⟨pre, hl.symm⟩, ?_⟩
    show extHere alts (w ++ post) = true
    simp only [extHere, List.any_eq_true, Bool.and_eq_true, Bool.not_eq_true']
    refine ⟨w, hw, ?_, ?_⟩
    · exact List.isPrefixOf_iff_prefix.mpr ⟨post, rfl⟩
    · rw [List.drop_left]
      exact (headNotWord_iff post).mpr hb

/-- The literal-substring search matches list-infix. -/
theorem substrSearch_iff (w l : List Char) : substrSearch w l = true ↔ w <:+: l := by
  unfold substrSearch
  rw [searchAny_iff, List.infix_iff_prefix_suffix]
  constructor
  · rintro ⟨t, ht, hp⟩
    exact ⟨t, List.isPrefixOf_iff_prefix.mp hp, ht⟩
  · rintro ⟨t, hp, ht⟩
    exact ⟨t, ht, List.isPrefixOf_iff_prefix.mpr hp⟩

/-- The query-flag search matches its declarative reading. -/
theorem queryKeySearch_iff (keys : List (List Char)) (l : List Char) :
    queryKeySearch keys l = true ↔ SpecQueryFlag keys l := by
  unfold queryKeySearch SpecQueryFlag
  rw [searchAny_iff]
  constructor
  · rintro ⟨t, ht, hp⟩
    unfold queryKeyHere at hp
    split at hp
    · next rest =>
      simp only [List.any_eq_true] at hp
      obtain ⟨k, hk, hpre⟩ := hp
      obtain ⟨post, hpost⟩ := List.isPrefixOf_iff_prefix.mp hpre
      obtain ⟨pre, hpre2⟩ := ht
      refine ⟨k, hk, ?_⟩
      refine ⟨pre, post, ?_⟩
      rw [← hpre2, ← hpost]
      simp
    · exact absurd hp (by simp)
  · rintro ⟨k, hk, s, t, hst⟩
    refine ⟨'?' :: (k ++ ['=']) ++ t, ⟨s, by rw [← hst]; simp⟩, ?_⟩
    show queryKeyHere keys ('?' :: ((k ++ ['=']) ++ t)) = true
    unfold queryKeyHere
    simp only [List.any_eq_true]
    exact ⟨k, hk, List.isPrefixOf_iff_prefix.mpr ⟨t, rfl⟩⟩

/-- The extensionless-tail search matches its declarative reading. -/
theorem extensionlessSearch_iff (l : List Char) :
    extensionlessSearch l = true ↔ SpecTailComp l := by
  unfold extensionlessSearch SpecTailComp
  rw [searchAny_iff]
  constructor
  · rintro ⟨t, ht, hp⟩
    unfold tailCompHere at hp
    split at hp
    · next rest =>
      simp only [Bool.and_eq_true, Bool.not_eq_true', List.all_eq_true] at hp
      obtain ⟨pre, hpre⟩ := ht
      refine ⟨pre, rest, hpre.symm, ?_, ?_⟩
      · intro hcontra
        rw [hcontra] at hp
        exact absurd hp.1 (by simp)
      · intro c hc
        have h2 := hp.2 c hc
        simp only [Bool.and_eq_true, Bool.not_eq_true']
        exact ⟨h2.1, h2.2⟩
    · exact absurd hp (by simp)
  · rintro ⟨pre, comp, hl, hne, hall⟩
    refine ⟨'/' :: comp, ⟨pre, hl.symm⟩, ?_⟩
    show tailCompHere ('/' :: comp) = true
    unfold tailCompHere
    simp only [Bool.and_eq_true, Bool.not_eq_true', List.all_eq_true]
    refine ⟨by simpa using hne, ?_⟩
    intro c hc
    have h2 := hall c hc
    simp only [Bool.and_eq_true, Bool.not_eq_true'] at h2
    exact ⟨h2.1, h2.2⟩

/-- Claim C4 fails as stated: `http://x.test/page?id=1&action=delete` has the
query parameter key `action` (second parameter), which the claim's backend
rule "query key in {action, method, api_key}" covers, yet the code's pattern
`\?(action|method|api_key)=` only matches the literal text `?action=`, so
the URL falls through to the page rules and classifies as html. -/
theorem claim4_counterexample :
    classify_endpoint "http://x.test/page?id=1&action=delete" = Category.html ∧
      "action".data ∈ specQueryKeys "http://x.test/page?id=1&action=delete" := by
  decide

/-- Claim C4 amended: backend rules are evaluated before page rules over the
full (lowered) URL text — extension alternatives after a dot with a word
boundary, the literal substrings `/api/`, `/ws/`, `/rest/` anywhere, the
literal text `?action=` / `?method=` / `?api_key=` (so only a query whose
flag appears verbatim, e.g. as first parameter), or `.cgi` — any match gives
backend even if a page rule also matches; otherwise a page extension or a
trailing slash-free dot-free component (of the full URL text, query
included) gives html; otherwise unknown. -/
theorem claim4_amended (u : String) :
    (classify_endpoint u = Category.backend ↔ SpecBackend u) ∧
    (classify_endpoint u = Category.html ↔ ¬SpecBackend u ∧ SpecHtml u) ∧
    (classify_endpoint u = Category.unknown ↔ ¬SpecBackend u ∧ ¬SpecHtml u) := by
  have hb : (dotAltSearch backendExts (u.data.map Char.toLower) ||
      substrSearch "/api/".data (u.data.map Char.toLower) ||
      substrSearch "/ws/".data (u.data.map Char.toLower) ||
      substrSearch "/rest/".data (u.data.map Char.toLower) ||
      queryKeySearch queryKeyList (u.data.map Char.toLower) ||
      dotAltSearch ["cgi".data] (u.data.map Char.toLower)) = true ↔ SpecBackend u := by
    simp only [Bool.or_eq_true, dotAltSearch_iff, substrSearch_iff, queryKeySearch_iff]
    unfold SpecBackend
    tauto
  have hh : (dotAltSearch pageExts (u.data.map Char.toLower) ||
      extensionlessSearch (u.data.map Char.toLower)) = true ↔ SpecHtml u := by
    simp only [Bool.or_eq_true, dotAltSearch_iff, extensionlessSearch_iff]
    unfold SpecHtml
    tauto
  unfold classify_endpoint
  dsimp only
  split
  · next hcond =>
    have hsb : SpecBackend u := hb.mp hcond
    exact ⟨⟨fun _ => hsb, fun _ => rfl⟩,
      ⟨fun h => Category.noConfusion h, fun h => absurd hsb h.1⟩,
      ⟨fun h => Category.noConfusion h, fun h => absurd hsb h.1⟩⟩
  · next hcond =>
    have hnb : ¬SpecBackend u := fun h => hcond (hb.mpr h)
    split
    · next hcond2 =>
      have hsh : SpecHtml u := hh.mp hcond2
      exact ⟨⟨fun h => Category.noConfusion h, fun h => absurd (hb.mpr h) hcond⟩,
        ⟨fun _ => ⟨hnb, hsh⟩, fun _ => rfl⟩,
        ⟨fun h => Category.noConfusion h, fun h => absurd hsh h.2⟩⟩
    · next hcond2 =>
      have hnh : ¬SpecHtml u := fun h => hcond2 (hh.mpr h)
      exact ⟨⟨fun h => Category.noConfusion h, fun h => absurd (hb.mpr h) hcond⟩,
        ⟨fun h => Category.noConfusion h, fun h => absurd h.2 hnh⟩,
        ⟨fun _ => ⟨hnb, hnh⟩, fun _ => rfl⟩⟩

/-! ## Function-name extraction (C7) -/

/-- `takeWhile` walks through a block that satisfies the predicate. -/
theorem takeWhile_append_all (p : Char → Bool) (l1 l2 : List Char)
    (h : ∀ c ∈ l1, p c = true) : (l1 ++ l2).takeWhile p = l1 ++ l2.takeWhile p := by
  induction l1 with
  | nil => simp
  | cons c cs ih =>
    simp only [List.cons_append, List.takeWhile_cons, h c (List.mem_cons_self c cs)]
    rw [ih fun d hd => h d (List.mem_cons_of_mem c hd)]
    simp

/-- `takeWhile` stops at a failing head. -/
theorem takeWhile_nil_of_head (p : Char → Bool) (c : Char) (l : List Char) (h : p c = false) :
    (c :: l).takeWhile p = [] := by
  simp [List.takeWhile_cons, h]

/-- An identifier head character is not whitespace. -/
theorem identStart_not_space (c : Char) (h : identStart c = true) : isSpaceCh c = false := by
  cases hsp : isSpaceCh c with
  | false => rfl
  | true =>
    exfalso
    simp only [isSpaceCh, Bool.or_eq_true, beq_iff_eq] at hsp
    rcases hsp with ((((rfl | rfl) | rfl) | rfl) | rfl) | rfl <;> exact absurd h (by decide)

/-- A non-continuation character is in particular not a word character. -/
theorem not_identCont_word (c : Char) (h : identCont c = false) : isWordChar c = false := by
  cases hw : isWordChar c with
  | false => rfl
  | true =>
    exfalso
    rw [identCont, hw] at h
    simp at h

/-- A list is a `isPrefixOf` of itself followed by anything. -/
theorem prefixOf_self_append (l r : List Char) : l.isPrefixOf (l ++ r) = true :=
  List.isPrefixOf_iff_prefix.mpr ⟨r, rfl⟩

/-- The binding-keyword lookup at a position starting with one of the four
keywords finds that keyword (the alternatives have distinct first letters). -/
theorem kwHere_append (kw : String) (rest : List Char)
    (hkw : kw ∈ ["function", "const", "let", "var"]) :
    kwHere (kw.data ++ rest) = some kw.data.length := by
  rcases (show kw = "function" ∨ kw = "const" ∨ kw = "let" ∨ kw = "var" by
    simpa using hkw) with rfl | rfl | rfl | rfl <;>
    simp [kwHere, bindingKeywords, List.filterMap, prefixOf_self_append, List.isPrefixOf]

/-- Anchored success of the function-name regex: at a position starting with a
binding keyword followed by whitespace and a clean identifier of length at
least two, the match yields exactly that identifier. -/
theorem kwTryAt_match (kw : String) (ws : List Char) (c0 c1 : Char) (t post : List Char)
    (hkw : kw ∈ ["function", "const", "let", "var"])
    (hws1 : ws ≠ []) (hws2 : ∀ c ∈ ws, isSpaceCh c = true)
    (hc0 : identStart c0 = true) (hc1 : identCont c1 = true)
    (ht : ∀ c ∈ t, identCont c = true)
    (hlast : isWordChar (t.getLastD c1) = true)
    (hpost : ∀ c, post.head? = some c → identCont c = false) :
    kwTryAt false (kw.data ++ (ws ++ ((c0 :: c1 :: t) ++ post))) =
      some (c0 :: c1 :: t, post) := by
  have hpostTW : post.takeWhile identCont = [] := by
    cases post with
    | nil => rfl
    | cons c ps => exact takeWhile_nil_of_head _ c ps (hpost c rfl)
  have hrun : ((c1 :: t) ++ post).takeWhile identCont = c1 :: t := by
    rw [takeWhile_append_all identCont (c1 :: t) post
      (by intro c hc; rcases List.mem_cons.mp hc with rfl | hc2
          · exact hc1
          · exact ht c hc2)]
    rw [hpostTW, List.append_nil]
  have hwordOptPost : isWordOpt post.head? = false := by
    cases post with
    | nil => rfl
    | cons c ps => exact not_identCont_word c (hpost c rfl)
  have hwsEmpty : ws.isEmpty = false := by
    cases ws with
    | nil => exact absurd rfl hws1
    | cons c cs => rfl
  have hwsTW : (ws ++ ((c0 :: c1 :: t) ++ post)).takeWhile isSpaceCh = ws := by
    rw [takeWhile_append_all isSpaceCh ws _ hws2]
    rw [show (c0 :: c1 :: t) ++ post = c0 :: ((c1 :: t) ++ post) from rfl]
    rw [takeWhile_nil_of_head isSpaceCh c0 _ (identStart_not_space c0 hc0), List.append_nil]
  have hpick : pickIdentAux c0 (c1 :: t) post (t.length + 1) = some (c0 :: c1 :: t, post) := by
    rw [pickIdentAux]
    rw [show (c1 :: t).take (t.length + 1) = c1 :: t by
      rw [← List.length_cons c1 t, List.take_length]]
    rw [show (c1 :: t).drop (t.length + 1) ++ post = post by
      rw [← List.length_cons c1 t, List.drop_length, List.nil_append]]
    rw [List.getLastD_cons, List.getLastD_cons, hlast, hwordOptPost]
    rfl
  unfold kwTryAt
  rw [if_neg (by simp)]
  rw [kwHere_append kw _ hkw]
  dsimp only
  rw [List.drop_left]
  rw [hwsTW, hwsEmpty]
  rw [if_neg (by simp)]
  rw [List.drop_left]
  rw [show (c0 :: c1 :: t) ++ post = c0 :: ((c1 :: t) ++ post) from rfl]
  dsimp only
  rw [if_pos hc0]
  rw [hrun]
  rw [List.drop_left]
  rw [show (c1 :: t).length = t.length + 1 from rfl]
  exact hpick

/-- The previous-character word-ness after walking one more character. -/
theorem endPrevW_cons (pw : Bool) (c : Char) (cs : List Char) :
    endPrevW (isWordChar c) cs = endPrevW pw (c :: cs) := by
  unfold endPrevW
  cases cs with
  | nil => rfl
  | cons d ds =>
    rw [List.getLast?_cons_cons]
    cases hl : (d :: ds).getLast? with
    | none => exact absurd hl (by simp)
    | some x => rfl

/-- The scan walks through a region with no anchored match one character at a
time, updating only the previous-character word-ness. -/
theorem fnFindAux_skip (rest : List Char) :
    ∀ (pre : List Char) (pw : Bool), scanSkips pw pre rest →
      fnFindAux (pre.length + rest.length) pw (pre ++ rest) =
        fnFindAux rest.length (endPrevW pw pre) rest := by
  intro pre
  induction pre with
  | nil =>
    intro pw _
    simp [endPrevW]
  | cons c cs ih =>
    intro pw hskip
    obtain ⟨h1, h2⟩ := hskip
    rw [show (c :: cs).length + rest.length = (cs.length + rest.length) + 1 by
      simp [Nat.add_right_comm]]
    rw [show (c :: cs) ++ rest = c :: (cs ++ rest) from rfl]
    have h1b : kwTryAt pw (c :: (cs ++ rest)) = none := h1
    rw [fnFindAux, h1b]
    rw [ih (isWordChar c) h2]
    rw [endPrevW_cons pw c cs]

/-- One successful scan step produces the matched identifier. -/
theorem fnFindAux_step (fuel : Nat) (pw : Bool) (c : Char) (cs ident rest2 : List Char)
    (h : kwTryAt pw (c :: cs) = some (ident, rest2)) :
    fnFindAux (fuel + 1) pw (c :: cs) =
      ident :: fnFindAux fuel (isWordChar (ident.getLastD c)) rest2 := by
  rw [fnFindAux, h]

/-- Claim C7 is falsified on the code: the identifier pattern is
`[a-zA-Z_$][\w$]+`, whose `+` demands a second character, so the
single-character identifier in `var x = 1` is not collected — the extraction
returns the empty set. -/
theorem claim7_counterexample :
    "x" ∉ extractFunctions "var x = 1" ∧ extractFunctions "var x = 1" = [] := by
  decide

/-- Claim C7 amended: every occurrence of a binding keyword at a word boundary,
followed by whitespace and an identifier token of **at least two**
characters (ending in a word character and followed by a non-identifier
character or the end), yields its identifier — the keyword itself is never
collected — provided the scan reaches the occurrence without an earlier
overlapping match (`re.findall` scans non-overlapping, so a keyword captured
as the previous match's identifier is skipped); single-character identifiers
are never collected (see the counterexample). -/
theorem claim7_amended (pre : List Char) (kw : String) (ws : List Char) (c0 c1 : Char)
    (t post : List Char)
    (hkw : kw ∈ ["function", "const", "let", "var"])
    (hskip : scanSkips false pre (kw.data ++ (ws ++ ((c0 :: c1 :: t) ++ post))))
    (hpw : endPrevW false pre = false)
    (hws1 : ws ≠ []) (hws2 : ∀ c ∈ ws, isSpaceCh c = true)
    (hc0 : identStart c0 = true) (hc1 : identCont c1 = true)
    (ht : ∀ c ∈ t, identCont c = true)
    (hlast : isWordChar (t.getLastD c1) = true)
    (hpost : ∀ c, post.head? = some c → identCont c = false) :
    String.mk (c0 :: c1 :: t) ∈
      extractFunctions (String.mk (pre ++ (kw.data ++ (ws ++ ((c0 :: c1 :: t) ++ post))))) := by
  have h1 : fnFindAll (pre ++ (kw.data ++ (ws ++ ((c0 :: c1 :: t) ++ post)))) =
      fnFindAux (kw.data ++ (ws ++ ((c0 :: c1 :: t) ++ post))).length false
        (kw.data ++ (ws ++ ((c0 :: c1 :: t) ++ post))) := by
    unfold fnFindAll
    rw [List.length_append, fnFindAux_skip _ pre false hskip, hpw]
  have hne : kw.data ++ (ws ++ ((c0 :: c1 :: t) ++ post)) ≠ [] := by
    rcases (show kw = "function" ∨ kw = "const" ∨ kw = "let" ∨ kw = "var" by
      simpa using hkw) with rfl | rfl | rfl | rfl <;> simp
  obtain ⟨c, cs, hcons⟩ := List.exists_cons_of_ne_nil hne
  have hmatch : kwTryAt false (c :: cs) = some (c0 :: c1 :: t, post) := by
    rw [← hcons]
    exact kwTryAt_match kw ws c0 c1 t post hkw hws1 hws2 hc0 hc1 ht hlast hpost
  have h2 : fnFindAux (kw.data ++ (ws ++ ((c0 :: c1 :: t) ++ post))).length false
      (kw.data ++ (ws ++ ((c0 :: c1 :: t) ++ post))) =
      (c0 :: c1 :: t) ::
        fnFindAux cs.length (isWordChar ((c0 :: c1 :: t).getLastD c)) post := by
    rw [hcons, show (c :: cs).length = cs.length + 1 from rfl]
    exact fnFindAux_step cs.length false c cs _ post hmatch
  unfold extractFunctions
  rw [List.mem_dedup]
  apply List.mem_map_of_mem String.mk
  rw [show (String.mk (pre ++ (kw.data ++ (ws ++ ((c0 :: c1 :: t) ++ post))))).data =
    pre ++ (kw.data ++ (ws ++ ((c0 :: c1 :: t) ++ post))) from rfl]
  rw [h1, h2]
  exact List.mem_cons_self _ _

/-- Witness for the amended C7: `var ab = 1` yields the identifier `ab`. -/
theorem claim7_witness :
    String.mk ['a', 'b'] ∈
      extractFunctions
        (String.mk ([] ++ ("var".data ++ ([' '] ++ (('a' :: 'b' :: []) ++ " = 1".data))))) :=
  claim7_amended [] "var" [' '] 'a' 'b' [] " = 1".data (by decide) trivial (by decide)
    (by decide) (by decide) (by decide) (by decide) (by decide) (by decide)
    (fun c hc => by
      rw [show c = ' ' from Option.some_inj.mp hc.symm]
      decide)

/-! ## Determinism up to set-iteration order (C9)

With the script branch dead (`scriptSrcTag`), the only set the crawl loop
iterates is the link set of line 164, whose order the `linkOrder` oracle
models: it is the sole remaining source of run-to-run nondeterminism. -/

/-- The findings containers produced by `process_endpoint` depend only on the
input containers, not on the frontier or control state. -/
theorem process_endpoint_congr (st st2 : CrawlState) (u : String)
    (hh : st.html_pages = st2.html_pages)
    (hb : st.backend_endpoints = st2.backend_endpoints) :
    (process_endpoint st u).html_pages = (process_endpoint st2 u).html_pages ∧
    (process_endpoint st u).backend_endpoints =
      (process_endpoint st2 u).backend_endpoints := by
  unfold process_endpoint
  cases hcl : classify_endpoint u with
  | html =>
    dsimp only
    rw [hh]
    split
    · exact ⟨hh, hb⟩
    · exact ⟨rfl, hb⟩
  | backend =>
    dsimp only
    rw [hb]
    split
    · exact ⟨hh, hb⟩
    · exact ⟨hh, rfl⟩
  | unknown => exact ⟨hh, hb⟩

/-- `process_endpoint` keeps both findings containers duplicate-free. -/
theorem process_endpoint_nodup (st : CrawlState) (u : String)
    (hh : st.html_pages.Nodup) (hb : st.backend_endpoints.Nodup) :
    (process_endpoint st u).html_pages.Nodup ∧
    (process_endpoint st u).backend_endpoints.Nodup := by
  unfold process_endpoint
  cases hcl : classify_endpoint u with
  | html =>
    dsimp only
    split
    · exact ⟨hh, hb⟩
    · next hc =>
      refine ⟨?_, hb⟩
      rw [List.nodup_append]
      exact ⟨hh, List.nodup_singleton _,
        by intro x hx hy; rw [List.mem_singleton.mp hy] at hx; exact hc (List.elem_iff.mpr hx)⟩
  | backend =>
    dsimp only
    split
    · exact ⟨hh, hb⟩
    · next hc =>
      refine ⟨hh, ?_⟩
      rw [List.nodup_append]
      exact ⟨hb, List.nodup_singleton _,
        by intro x hx hy; rw [List.mem_singleton.mp hy] at hx; exact hc (List.elem_iff.mpr hx)⟩
  | unknown => exact ⟨hh, hb⟩

/-- The insertion fold keeps both findings containers duplicate-free. -/
theorem process_foldl_nodup (urls : List String) :
    ∀ st : CrawlState, st.html_pages.Nodup → st.backend_endpoints.Nodup →
      (urls.foldl process_endpoint st).html_pages.Nodup ∧
      (urls.foldl process_endpoint st).backend_endpoints.Nodup := by
  induction urls with
  | nil => intro st hh hb; exact ⟨hh, hb⟩
  | cons u rest ih =>
    intro st hh hb
    rw [List.foldl_cons]
    have h := process_endpoint_nodup st u hh hb
    exact ih _ h.1 h.2

/-- The queue bookkeeping of `processLinks` does not affect the findings
containers: they equal those of the plain insertion fold. -/
theorem processLinks_findings_eq (depth : Nat) (links : List String) :
    ∀ (st st2 : CrawlState), st.html_pages = st2.html_pages →
      st.backend_endpoints = st2.backend_endpoints →
      (processLinks depth links st).html_pages =
        (links.foldl process_endpoint st2).html_pages ∧
      (processLinks depth links st).backend_endpoints =
        (links.foldl process_endpoint st2).backend_endpoints := by
  induction links with
  | nil => intro st st2 hh hb; exact ⟨hh, hb⟩
  | cons l rest ih =>
    intro st st2 hh hb
    have hlift : processLinks depth (l :: rest) st =
        processLinks depth rest
          (let st3 := process_endpoint st l
           if st3.visited_urls.contains l then st3
           else { st3 with queue := st3.queue ++ [(l, depth + 1)] }) := rfl
    rw [hlift, List.foldl_cons]
    have hstep := process_endpoint_congr st st2 l hh hb
    apply ih
    · show (if (process_endpoint st l).visited_urls.contains l then process_endpoint st l
        else { process_endpoint st l with
               queue := (process_endpoint st l).queue ++ [(l, depth + 1)] }).html_pages =
        (process_endpoint st2 l).html_pages
      split
      · exact hstep.1
      · exact hstep.1
    · show (if (process_endpoint st l).visited_urls.contains l then process_endpoint st l
        else { process_endpoint st l with
               queue := (process_endpoint st l).queue ++ [(l, depth + 1)] }).backend_endpoints =
        (process_endpoint st2 l).backend_endpoints
      split
      · exact hstep.2
      · exact hstep.2

/-- The frontier after `processLinks`: the original frontier plus, in iteration
order, one `(link, depth+1)` entry for each not-yet-visited link. -/
theorem processLinks_queue_eq (depth : Nat) (links : List String) :
    ∀ st : CrawlState, (processLinks depth links st).queue =
      st.queue ++ (links.filter fun l => !st.visited_urls.contains l).map
        fun l => (l, depth + 1) := by
  induction links with
  | nil => intro st; simp [processLinks]
  | cons l rest ih =>
    intro st
    have hframe := process_endpoint_frame st l
    by_cases hv : st.visited_urls.contains l = true
    · have hstep : processLinks depth (l :: rest) st =
          processLinks depth rest (process_endpoint st l) := by
        show processLinks depth rest
          (if (process_endpoint st l).visited_urls.contains l then process_endpoint st l
           else { process_endpoint st l with
                  queue := (process_endpoint st l).queue ++ [(l, depth + 1)] }) =
          processLinks depth rest (process_endpoint st l)
        rw [hframe.1, if_pos hv]
      rw [hstep, ih, hframe.1, hframe.2.1]
      have hfl : (l :: rest).filter (fun x => !st.visited_urls.contains x) =
          rest.filter fun x => !st.visited_urls.contains x := by
        rw [List.filter_cons]
        rw [show (!st.visited_urls.contains l) = false by rw [hv]; rfl]
        rfl
      rw [hfl]
    · have hv2 : st.visited_urls.contains l = false := by
        cases h2 : st.visited_urls.contains l
        · rfl
        · exact absurd h2 hv
      have hstep : processLinks depth (l :: rest) st =
          processLinks depth rest
            { process_endpoint st l with
              queue := (process_endpoint st l).queue ++ [(l, depth + 1)] } := by
        show processLinks depth rest
          (if (process_endpoint st l).visited_urls.contains l then process_endpoint st l
           else { process_endpoint st l with
                  queue := (process_endpoint st l).queue ++ [(l, depth + 1)] }) =
          processLinks depth rest
            { process_endpoint st l with
              queue := (process_endpoint st l).queue ++ [(l, depth + 1)] }
        rw [hframe.1]
        rw [if_neg (by rw [hv2]; exact Bool.false_ne_true)]
      rw [hstep, ih]
      dsimp only
      rw [hframe.1, hframe.2.1]
      have hfl : (l :: rest).filter (fun x => !st.visited_urls.contains x) =
          l :: rest.filter fun x => !st.visited_urls.contains x := by
        rw [List.filter_cons]
        rw [show (!st.visited_urls.contains l) = true by rw [hv2]; rfl]
        rfl
      rw [hfl, List.map_cons, List.append_assoc]
      rfl

/-- Claim C9 amended: at concurrency degree 1 over a fixed mocked response
graph, the only run-to-run nondeterminism is the iteration order of the
discovered-link set at line 164, which Python's per-process hash
randomization does not fix.  The findings a page pass contributes are
independent of that order — permuting the iterated link list yields
permuted (set-equal) `html_pages` and `backend_endpoints` containers, an
unchanged visited set and functions container, and a permuted frontier —
but the per-page notification sequence follows the iteration order, so two
processes with different hash seeds may emit the same notifications in
different orders (see the counterexample, where the full runs agree on all
contents and differ in the log); identical sequences are guaranteed only
when both runs iterate the link sets in the same order. -/
theorem claim9_amended (depth : Nat) (links links2 : List String) (st : CrawlState)
    (hperm : links.Perm links2)
    (hh : st.html_pages.Nodup) (hb : st.backend_endpoints.Nodup) :
    (processLinks depth links st).html_pages.Perm
      (processLinks depth links2 st).html_pages ∧
    (processLinks depth links st).backend_endpoints.Perm
      (processLinks depth links2 st).backend_endpoints ∧
    (processLinks depth links st).visited_urls =
      (processLinks depth links2 st).visited_urls ∧
    (processLinks depth links st).functions = (processLinks depth links2 st).functions ∧
    (processLinks depth links st).queue.Perm (processLinks depth links2 st).queue := by
  have h1 := processLinks_findings_eq depth links st st rfl rfl
  have h2 := processLinks_findings_eq depth links2 st st rfl rfl
  have hn1 := process_foldl_nodup links st hh hb
  have hn2 := process_foldl_nodup links2 st hh hb
  refine ⟨?_, ?_, ?_, ?_, ?_⟩
  · rw [h1.1, h2.1]
    apply (List.perm_ext_iff_of_nodup hn1.1 hn2.1).mpr
    intro k
    rw [process_foldl_html, process_foldl_html]
    apply or_congr_right
    exact exists_congr fun u => and_congr_left fun _ => hperm.mem_iff
  · rw [h1.2, h2.2]
    apply (List.perm_ext_iff_of_nodup hn1.2 hn2.2).mpr
    intro k
    rw [process_foldl_backend, process_foldl_backend]
    apply or_congr_right
    exact exists_congr fun u => and_congr_left fun _ => hperm.mem_iff
  · rw [(processLinks_frame depth links st).1, (processLinks_frame depth links2 st).1]
  · rw [(processLinks_frame depth links st).2.1, (processLinks_frame depth links2 st).2.1]
  · rw [processLinks_queue_eq, processLinks_queue_eq]
    exact List.Perm.append_left st.queue ((hperm.filter _).map _)

/-- Claim C9 is falsified on the code: the two runs `envC9a` and `envC9b` crawl
the same fixed mocked response graph at concurrency degree 1 and differ only
in the iteration order of the line-164 link set (as two Python processes
with different hash seeds do); their notification sequences differ even
though the findings containers hold the same elements. -/
theorem claim9_counterexample :
    (crawl envC9a "http://x.test/a" 3 8).log ≠ (crawl envC9b "http://x.test/a" 3 8).log ∧
    (crawl envC9a "http://x.test/a" 3 8).html_pages =
      ["http://x.test/a", "http://x.test/p1", "http://x.test/p2"] ∧
    (crawl envC9b "http://x.test/a" 3 8).html_pages =
      ["http://x.test/a", "http://x.test/p2", "http://x.test/p1"] ∧
    (crawl envC9a "http://x.test/a" 3 8).backend_endpoints = [] ∧
    (crawl envC9b "http://x.test/a" 3 8).backend_endpoints = [] ∧
    (crawl envC9a "http://x.test/a" 3 8).functions = [] ∧
    (crawl envC9b "http://x.test/a" 3 8).functions = [] := by
  decide

/-- Witness for the amended C9: permuting a concrete two-link page pass leaves
the html container the same up to permutation. -/
theorem claim9_witness :
    (processLinks 0 ["http://x.test/p1", "http://x.test/p2"] emptyFindings).html_pages.Perm
      (processLinks 0 ["http://x.test/p2", "http://x.test/p1"] emptyFindings).html_pages :=
  (claim9_amended 0 ["http://x.test/p1", "http://x.test/p2"]
      ["http://x.test/p2", "http://x.test/p1"] emptyFindings
      (List.Perm.swap "http://x.test/p2" "http://x.test/p1" [])
      List.nodup_nil List.nodup_nil).1
